import Mathlib

/-
Verification of the minesweeper knowledge-based inference engine
(src/minesweeper.py).

The embedding is a direct functional translation of the Python source:

* a board cell is a pair of integers (row, column);
* Python sets of cells become `Finset Cell`;
* `Sentence` objects become a structure with a `Finset Cell` and an
  integer count (Python integers are unbounded, and `mark_mine` can in
  principle drive a count negative, so counts are `ℤ`);
* the `MinesweeperAI` object becomes a structure holding the fields
  `height`, `width`, `moves_made`, `mines`, `safes`, `knowledge`, and
  every mutating method becomes a function from states to states;
* iteration over a Python set (whose enumeration order is unspecified)
  is modelled by iterating over the set's sorted element list produced
  by `cellSort`; this is one admissible enumeration order, and the
  operations folded over it are order-independent;
* the `while` loop of `add_knowledge` step 4 runs on explicit fuel and
  the whole call returns `Option` (`none` = the loop did not reach its
  fixpoint within the given fuel);
* `random.choice(tuple(s))`, which draws a uniformly random element of
  the tuple enumerating the set `s`, is modelled by an explicit random
  index `r` selecting position `r % len` of the enumeration of `s`.
-/

/-- A board cell: a (row, column) pair of integers. -/
abbrev Cell : Type := ℤ × ℤ

/-- Row-major total order on cells, used only to enumerate finite sets
of cells the way Python iterates over a set (in some fixed order). -/
def cellLe (a b : Cell) : Prop := a.1 < b.1 ∨ (a.1 = b.1 ∧ a.2 ≤ b.2)

instance : DecidableRel cellLe := fun a b => by unfold cellLe; infer_instance

instance : IsTotal Cell cellLe := by
  constructor
  intro a b
  unfold cellLe
  omega

instance : IsTrans Cell cellLe := by
  constructor
  intro a b c hab hbc
  unfold cellLe at *
  omega

instance : IsAntisymm Cell cellLe := by
  constructor
  intro a b hab hba
  unfold cellLe at *
  obtain ⟨a1, a2⟩ := a
  obtain ⟨b1, b2⟩ := b
  simp_all
  omega

/-- Sorted list of the elements of a multiset of cells (insertion sort,
which the kernel can evaluate). -/
def msortCells (m : Multiset Cell) : List Cell :=
  Quot.liftOn m (fun l => List.insertionSort cellLe l) (fun _ _ h =>
    List.eq_of_perm_of_sorted
      ((List.perm_insertionSort _ _).trans (h.trans (List.perm_insertionSort _ _).symm))
      (List.sorted_insertionSort _ _) (List.sorted_insertionSort _ _))

/-- Enumeration of a finite set of cells as a sorted, duplicate-free list. -/
def cellSort (s : Finset Cell) : List Cell := msortCells s.val

/-- A logical sentence about the game: exactly `count` of the cells in
`cells` are mines (minesweeper.py, class Sentence, lines 88-140).
Python `__eq__` compares the cell set and the count, which is exactly
structural equality of this structure. -/
structure Sentence where
  cells : Finset Cell
  count : ℤ
deriving DecidableEq

namespace Sentence

/-- Sentence.known_mines (lines 105-113): if len(self.cells) == self.count,
insert every cell of self.cells into an initially empty set; otherwise
return the empty set. -/
def known_mines (s : Sentence) : Finset Cell :=
  if (s.cells.card : ℤ) = s.count then
    (cellSort s.cells).foldl (fun acc c => insert c acc) ∅
  else ∅

/-- Sentence.known_safes (lines 115-123): if self.count == 0, insert every
cell of self.cells into an initially empty set; otherwise return the
empty set. -/
def known_safes (s : Sentence) : Finset Cell :=
  if s.count = 0 then
    (cellSort s.cells).foldl (fun acc c => insert c acc) ∅
  else ∅

/-- Sentence.mark_mine (lines 125-132): if the cell is present, remove it
and decrement the count by one; otherwise do nothing. -/
def mark_mine (s : Sentence) (c : Cell) : Sentence :=
  if c ∈ s.cells then { cells := s.cells.erase c, count := s.count - 1 } else s

/-- Sentence.mark_safe (lines 134-140): if the cell is present, remove it;
the count is unchanged. -/
def mark_safe (s : Sentence) (c : Cell) : Sentence :=
  if c ∈ s.cells then { cells := s.cells.erase c, count := s.count } else s

end Sentence

/-- The in-bounds 8-neighborhood of a cell: all cells within one row and
one column, excluding the cell itself, clipped to the board bounds.
This is the double loop at minesweeper.py lines 205-212 (and the same
loop inside Minesweeper.nearby_mines, lines 67-77). -/
def surroundingCells (height width : ℤ) (cell : Cell) : Finset Cell :=
  (Finset.Icc (cell.1 - 1) (cell.1 + 1) ×ˢ Finset.Icc (cell.2 - 1) (cell.2 + 1)).filter
    (fun p => p ≠ cell ∧ 0 ≤ p.1 ∧ p.1 < height ∧ 0 ≤ p.2 ∧ p.2 < width)

namespace Minesweeper

/-- Minesweeper.nearby_mines (lines 56-79): the number of true mines within
one row and column of `cell`, the cell itself excluded, out-of-bounds
positions ignored. The boolean board `self.board[i][j]` is represented by
membership of `(i, j)` in the mine set `mines`. -/
def nearby_mines (height width : ℤ) (mines : Finset Cell) (cell : Cell) : ℕ :=
  (surroundingCells height width cell ∩ mines).card

end Minesweeper

/-- The agent state: the fields of the MinesweeperAI object
(minesweeper.py lines 148-162). -/
structure MinesweeperAI where
  height : ℤ
  width : ℤ
  moves_made : Finset Cell
  mines : Finset Cell
  safes : Finset Cell
  knowledge : List Sentence
deriving DecidableEq

namespace MinesweeperAI

/-- MinesweeperAI.__init__ (lines 148-162): empty move/mine/safe sets and
an empty knowledge base. -/
def init (height width : ℤ) : MinesweeperAI :=
  { height := height, width := width, moves_made := ∅, mines := ∅, safes := ∅, knowledge := [] }

/-- MinesweeperAI.mark_mine (lines 164-171): add the cell to self.mines and
invoke Sentence.mark_mine on every sentence in the knowledge base. -/
def mark_mine (st : MinesweeperAI) (c : Cell) : MinesweeperAI :=
  { st with
    mines := insert c st.mines
    knowledge := st.knowledge.map (fun s => s.mark_mine c) }

/-- MinesweeperAI.mark_safe (lines 173-180): add the cell to self.safes and
invoke Sentence.mark_safe on every sentence in the knowledge base. -/
def mark_safe (st : MinesweeperAI) (c : Cell) : MinesweeperAI :=
  { st with
    safes := insert c st.safes
    knowledge := st.knowledge.map (fun s => s.mark_safe c) }

/-- Processing of the sentence at index `i` during the marking sub-pass of
add_knowledge step 4 (lines 229-235): take the sentence currently at
index `i`, mark every cell of its known_mines() snapshot as a mine, then
re-read the (now mutated) sentence at index `i` and mark every cell of
its known_safes() snapshot as safe; the extracted cells are accumulated
in the cells_changed component. Out-of-range indices read the harmless
default sentence with no cells. -/
def markStep (p : MinesweeperAI × Finset Cell) (i : ℕ) : MinesweeperAI × Finset Cell :=
  let s := p.1.knowledge.getD i { cells := ∅, count := 0 }
  let km := s.known_mines
  let st1 := (cellSort km).foldl mark_mine p.1
  let s2 := st1.knowledge.getD i { cells := ∅, count := 0 }
  let ks := s2.known_safes
  let st2 := (cellSort ks).foldl mark_safe st1
  (st2, p.2 ∪ km ∪ ks)

/-- The full marking sub-pass of add_knowledge step 4 (lines 228-235):
iterate over the sentences of the knowledge base in list order (the list
itself is not extended during this sub-pass, only its sentences mutate),
returning the new state and the set cells_changed. -/
def markPass (st : MinesweeperAI) : MinesweeperAI × Finset Cell :=
  (List.range st.knowledge.length).foldl markStep (st, ∅)

/-- The new_sentences list built at lines 237-245: for every ordered pair
of sentences (sentence1, sentence2) of the knowledge base with
sentence1.cells a subset of sentence2.cells and the two cell sets not
equal, the sentence with cells sentence2.cells - sentence1.cells and
count sentence2.count - sentence1.count, in iteration order. -/
def derivedSentences (kb : List Sentence) : List Sentence :=
  kb.flatMap (fun s1 =>
    kb.filterMap (fun s2 =>
      if s1.cells ⊆ s2.cells ∧ s1.cells ≠ s2.cells then
        some { cells := s2.cells \ s1.cells, count := s2.count - s1.count }
      else none))

/-- One step of the appending loop at lines 247-253: skip the candidate
sentence if it is already (structurally) in the knowledge base, else
append it and count the change. -/
def appendNew (p : MinesweeperAI × ℕ) (s : Sentence) : MinesweeperAI × ℕ :=
  if s ∈ p.1.knowledge then p
  else ({ p.1 with knowledge := p.1.knowledge ++ [s] }, p.2 + 1)

/-- The deriving sub-pass of add_knowledge step 5 (lines 236-253): build
new_sentences from the current knowledge base, then append the ones not
already present, returning the new state and changes_made. -/
def derivePass (st : MinesweeperAI) : MinesweeperAI × ℕ :=
  (derivedSentences st.knowledge).foldl appendNew (st, 0)

/-- The while loop of add_knowledge steps 4-5 (lines 225-256): repeat the
marking sub-pass followed by the deriving sub-pass until one full pass
marks no cell and appends no sentence. The loop runs on explicit fuel;
`none` means the fixpoint was not reached within `fuel` passes. -/
def closureLoop : ℕ → MinesweeperAI → Option MinesweeperAI
  | 0, _ => none
  | fuel + 1, st =>
    let p := markPass st
    let q := derivePass p.1
    if p.2 = ∅ ∧ q.2 = 0 then some q.1 else closureLoop fuel q.1

/-- The duplicate-removal loop at lines 267-272: rebuild the knowledge
base keeping only the first occurrence of each (structurally equal)
sentence. -/
def pwDedup (l : List Sentence) : List Sentence :=
  l.foldl (fun acc s => if s ∈ acc then acc else acc ++ [s]) []

/-- One step of the loop at lines 217-222 preparing the new sentence of
add_knowledge step 3: a surrounding cell already known to be a mine is
removed from the cell set and decrements the running count, a
surrounding cell already known safe is removed without touching the
count. (In Python the two branches are separate `if`s and a second
`set.remove` of an absent element would raise; with `Finset.erase` the
second removal is a no-op, which agrees with the source whenever
`mines` and `safes` are disjoint, the situation in every reachable
state.) -/
def dropKnown (mines safes : Finset Cell) (p : Finset Cell × ℤ) (c : Cell) : Finset Cell × ℤ :=
  let p1 := if c ∈ mines then (p.1.erase c, p.2 - 1) else p
  if c ∈ safes then (p1.1.erase c, p1.2) else p1

/-- Steps 1-3 of MinesweeperAI.add_knowledge (lines 197-223). Step 1:
record the cell in moves_made. Step 2: add the cell to safes and call
mark_safe. Step 3: build the sentence over the surrounding cells,
dropping neighbors whose status is known, and append it to the
knowledge base (even when its cell set came out empty). -/
def stage3 (st : MinesweeperAI) (cell : Cell) (count : ℤ) : MinesweeperAI :=
  let stA := { st with moves_made := insert cell st.moves_made }
  let stB := { stA with safes := insert cell stA.safes }
  let stC := stB.mark_safe cell
  let nb := surroundingCells st.height st.width cell
  let p := (cellSort nb).foldl (dropKnown stC.mines stC.safes) (nb, count)
  { stC with knowledge := stC.knowledge ++ [{ cells := p.1, count := p.2 }] }

/-- The cleanup after the closure loop (lines 257-272): strip every
sentence with an empty cell set (the net effect of the removal loop at
lines 257-266, which repeats until no empty sentence remains and never
removes a non-empty sentence, preserving the order of the survivors)
and deduplicate keeping first occurrences (lines 267-272). -/
def cleanupKB (st : MinesweeperAI) : MinesweeperAI :=
  { st with knowledge := pwDedup (st.knowledge.filter (fun s => s.cells ≠ ∅)) }

/-- MinesweeperAI.add_knowledge (lines 182-272): steps 1-3, then the
closure loop of steps 4-5 run on the given fuel, then the cleanup. -/
def add_knowledge (fuel : ℕ) (st : MinesweeperAI) (cell : Cell) (count : ℤ) :
    Option MinesweeperAI :=
  (closureLoop fuel (stage3 st cell count)).map cleanupKB

/-- MinesweeperAI.make_safe_move (lines 274-289): if safes - moves_made is
empty return none (the Python test is len(safe_moves) == 0; the
enumeration produced by cellSort has exactly one entry per element, so
its length is that len), else return a random element; the random draw
of random.choice over the (here: sorted) enumeration of the set is
modelled by the index `r % size`. -/
def make_safe_move (st : MinesweeperAI) (r : ℕ) : Option Cell :=
  let safe_moves := st.safes \ st.moves_made
  if h : (cellSort safe_moves).length = 0 then none
  else
    some ((cellSort safe_moves).get
      ⟨r % (cellSort safe_moves).length, Nat.mod_lt _ (Nat.pos_of_ne_zero h)⟩)

/-- The all_cells set built by the double loop at lines 298-301: every
in-bounds board cell. -/
def allCells (height width : ℤ) : Finset Cell :=
  Finset.Icc 0 (height - 1) ×ˢ Finset.Icc 0 (width - 1)

/-- MinesweeperAI.make_random_move (lines 291-308): if
all_cells - moves_made - mines is empty return none, else return a
random element of it, modelled as in make_safe_move. -/
def make_random_move (st : MinesweeperAI) (r : ℕ) : Option Cell :=
  let all_cells := allCells st.height st.width
  let possible_moves := (all_cells \ st.moves_made) \ st.mines
  if h : (cellSort possible_moves).length = 0 then none
  else
    some ((cellSort possible_moves).get
      ⟨r % (cellSort possible_moves).length, Nat.mod_lt _ (Nat.pos_of_ne_zero h)⟩)

/-- A sequence of add_knowledge calls, each observation one (cell, count)
pair, every call run with the same fuel; the sequence aborts (none) as
soon as one closure loop fails to reach its fixpoint in time. -/
def runCalls (fuel : ℕ) (calls : List (Cell × ℤ)) (st : MinesweeperAI) :
    Option MinesweeperAI :=
  calls.foldlM (fun s c => add_knowledge fuel s c.1 c.2) st

end MinesweeperAI

/-! ### Soundness invariants

`holds B s` says the sentence `s` is true of the board whose true mine
set is `B`: exactly `s.count` of its cells are mines. `sound B st` says
every confirmed mine of the agent is a true mine, every confirmed safe
cell is not a mine, and every sentence of the knowledge base is true of
the board. `sep st` says no sentence of the knowledge base mentions a
cell already confirmed as mine or safe. `bounded U st` says all cells
the agent tracks lie in the finite universe `U` of board cells. -/

def Sentence.holds (B : Finset Cell) (s : Sentence) : Prop :=
  ((s.cells ∩ B).card : ℤ) = s.count

def MinesweeperAI.sound (B : Finset Cell) (st : MinesweeperAI) : Prop :=
  st.mines ⊆ B ∧ (∀ c ∈ st.safes, c ∉ B) ∧ ∀ s ∈ st.knowledge, s.holds B

def MinesweeperAI.sep (st : MinesweeperAI) : Prop :=
  ∀ s ∈ st.knowledge, ∀ c ∈ s.cells, c ∉ st.mines ∧ c ∉ st.safes

def MinesweeperAI.bounded (U : Finset Cell) (st : MinesweeperAI) : Prop :=
  st.mines ⊆ U ∧ st.safes ⊆ U ∧ ∀ s ∈ st.knowledge, s.cells ⊆ U

/-! ### Decidability of the invariants (used to check concrete states) -/

instance (B : Finset Cell) (s : Sentence) : Decidable (s.holds B) := by
  unfold Sentence.holds
  infer_instance

instance (B : Finset Cell) (st : MinesweeperAI) : Decidable (st.sound B) := by
  unfold MinesweeperAI.sound
  infer_instance

instance (st : MinesweeperAI) : Decidable st.sep := by
  unfold MinesweeperAI.sep
  infer_instance

instance (U : Finset Cell) (st : MinesweeperAI) : Decidable (st.bounded U) := by
  unfold MinesweeperAI.bounded
  infer_instance

/-- The finite universe of sentences whose cells lie in `U` and whose
count is between 0 and the number of cells of `U`; every sentence of a
sound, bounded knowledge base lives here. -/
def sentUniverse (U : Finset Cell) : Finset Sentence :=
  (U.powerset ×ˢ Finset.Icc (0 : ℤ) (U.card : ℤ)).image
    (fun q => { cells := q.1, count := q.2 })

/-- Decreasing measure for the closure loop: the number of universe cells
not yet confirmed, weighted, plus the number of universe sentences not
yet in the knowledge base. -/
def measureM (U : Finset Cell) (st : MinesweeperAI) : ℕ :=
  (U \ (st.mines ∪ st.safes)).card * ((sentUniverse U).card + 1) +
    ((sentUniverse U) \ st.knowledge.toFinset).card

/-! ### Example states used to instantiate the claims -/

/-- The state reached by a fresh 2 by 2 agent after add_knowledge((0,0), 1)
on a board whose only mine is (1,1). -/
def exState22a : MinesweeperAI :=
  { height := 2, width := 2, moves_made := {((0:ℤ),(0:ℤ))}, mines := ∅,
    safes := {((0:ℤ),(0:ℤ))},
    knowledge := [{ cells := {((0:ℤ),(1:ℤ)), ((1:ℤ),(0:ℤ)), ((1:ℤ),(1:ℤ))}, count := 1 }] }

/-- The state reached by a fresh 2 by 2 agent after add_knowledge((0,0), 0)
on a board with no mines: every cell is deduced safe and the fully
reduced sentence has been cleaned away. -/
def exState22b : MinesweeperAI :=
  { height := 2, width := 2, moves_made := {((0:ℤ),(0:ℤ))}, mines := ∅,
    safes := {((1:ℤ),(1:ℤ)), ((1:ℤ),(0:ℤ)), ((0:ℤ),(1:ℤ)), ((0:ℤ),(0:ℤ))},
    knowledge := [] }

/-- Knowledge base holding S1 = (A,B):1 and S2 = (A,B,C):2 with
A = (0,0), B = (0,1), C = (0,2), the subset-inference test case. -/
def c2Start : MinesweeperAI :=
  { height := 3, width := 3, moves_made := ∅, mines := ∅, safes := ∅,
    knowledge := [{ cells := {((0:ℤ),(0:ℤ)), ((0:ℤ),(1:ℤ))}, count := 1 },
      { cells := {((0:ℤ),(0:ℤ)), ((0:ℤ),(1:ℤ)), ((0:ℤ),(2:ℤ))}, count := 2 }] }

/-- The fixpoint the closure loop reaches from c2Start: C = (0,2) has been
marked as a mine. -/
def c2End : MinesweeperAI :=
  { height := 3, width := 3, moves_made := ∅, mines := {((0:ℤ),(2:ℤ))}, safes := ∅,
    knowledge := [{ cells := {((0:ℤ),(0:ℤ)), ((0:ℤ),(1:ℤ))}, count := 1 },
      { cells := {((0:ℤ),(0:ℤ)), ((0:ℤ),(1:ℤ))}, count := 1 },
      { cells := ∅, count := 0 }] }

/-- Agent state with knownSafes (0,0) and (0,1) and movesMade (0,0), the
move-selection test case. -/
def c6State : MinesweeperAI :=
  { height := 8, width := 8, moves_made := {((0:ℤ),(0:ℤ))}, mines := ∅,
    safes := {((0:ℤ),(0:ℤ)), ((0:ℤ),(1:ℤ))}, knowledge := [] }

/-! ### Enumeration of a finite set of cells: basic facts -/

theorem coe_msortCells (m : Multiset Cell) : (↑(msortCells m) : Multiset Cell) = m :=
  Quot.inductionOn m (fun _ => Quot.sound (List.perm_insertionSort _ _))

theorem mem_cellSort {s : Finset Cell} {c : Cell} : c ∈ cellSort s ↔ c ∈ s := by
  have h : (↑(msortCells s.val) : Multiset Cell) = s.val := coe_msortCells s.val
  rw [← Finset.mem_val]
  conv_rhs => rw [← h]
  exact Multiset.mem_coe.symm

theorem cellSort_nodup (s : Finset Cell) : (cellSort s).Nodup := by
  have h := s.nodup
  rw [← coe_msortCells s.val] at h
  exact h

theorem length_cellSort (s : Finset Cell) : (cellSort s).length = s.card := by
  have h : Multiset.card (↑(cellSort s) : Multiset Cell) = Multiset.card s.val := by
    show Multiset.card (↑(msortCells s.val) : Multiset Cell) = Multiset.card s.val
    rw [coe_msortCells]
  simpa using h

theorem cellSort_toFinset (s : Finset Cell) : (cellSort s).toFinset = s := by
  ext c
  simp [List.mem_toFinset, mem_cellSort]

/-! ### Basic characterizations -/

theorem foldl_insert_cells (l : List Cell) (acc : Finset Cell) :
    l.foldl (fun a c => insert c a) acc = acc ∪ l.toFinset := by
  induction l generalizing acc with
  | nil => simp
  | cons c l ih =>
    rw [List.foldl_cons, ih]
    ext x
    simp [or_comm, or_left_comm]

theorem Sentence.known_mines_eq (s : Sentence) :
    s.known_mines = if (s.cells.card : ℤ) = s.count then s.cells else ∅ := by
  unfold Sentence.known_mines
  split
  · rw [foldl_insert_cells, cellSort_toFinset]
    simp
  · rfl

theorem Sentence.known_safes_eq (s : Sentence) :
    s.known_safes = if s.count = 0 then s.cells else ∅ := by
  unfold Sentence.known_safes
  split
  · rw [foldl_insert_cells, cellSort_toFinset]
    simp
  · rfl

theorem List.getD_mem_or {α : Type*} (l : List α) (i : ℕ) (d : α) :
    l.getD i d ∈ l ∨ l.getD i d = d := by
  by_cases h : i < l.length
  · left
    rw [List.getD_eq_getElem l d h]
    exact l.getElem_mem h
  · right
    exact List.getD_eq_default l d (by omega)

theorem Sentence.holds_mark_mine {B : Finset Cell} {s : Sentence} (h : s.holds B)
    {c : Cell} (hc : c ∈ B) : (s.mark_mine c).holds B := by
  unfold Sentence.mark_mine
  split
  · rename_i hcs
    unfold Sentence.holds at *
    have hmem : c ∈ s.cells ∩ B := Finset.mem_inter.mpr ⟨hcs, hc⟩
    have h1 : s.cells.erase c ∩ B = (s.cells ∩ B).erase c := by
      ext x
      simp only [Finset.mem_inter, Finset.mem_erase]
      tauto
    have h2 : ((s.cells ∩ B).erase c).card = (s.cells ∩ B).card - 1 :=
      Finset.card_erase_of_mem hmem
    have h3 : 1 ≤ (s.cells ∩ B).card := Finset.card_pos.mpr ⟨c, hmem⟩
    simp only [h1, h2] at *
    omega
  · exact h

theorem Sentence.holds_mark_safe {B : Finset Cell} {s : Sentence} (h : s.holds B)
    {c : Cell} (hc : c ∉ B) : (s.mark_safe c).holds B := by
  unfold Sentence.mark_safe
  split
  · unfold Sentence.holds at *
    have h1 : s.cells.erase c ∩ B = s.cells ∩ B := by
      ext x
      simp only [Finset.mem_inter, Finset.mem_erase]
      constructor
      · tauto
      · rintro ⟨hx, hxB⟩
        exact ⟨⟨fun he => hc (he ▸ hxB), hx⟩, hxB⟩
    simpa [h1] using h
  · exact h

theorem Sentence.extract_mines {B : Finset Cell} {s : Sentence} (h : s.holds B)
    (hcard : (s.cells.card : ℤ) = s.count) : s.cells ⊆ B := by
  unfold Sentence.holds at h
  have hsub : s.cells ∩ B ⊆ s.cells := Finset.inter_subset_left
  have hcard2 : (s.cells ∩ B).card = s.cells.card := by omega
  have heq : s.cells ∩ B = s.cells :=
    Finset.eq_of_subset_of_card_le hsub (le_of_eq hcard2.symm)
  intro c hc
  have : c ∈ s.cells ∩ B := heq.symm ▸ hc
  exact (Finset.mem_inter.mp this).2

theorem Sentence.extract_safes {B : Finset Cell} {s : Sentence} (h : s.holds B)
    (hcount : s.count = 0) : ∀ c ∈ s.cells, c ∉ B := by
  unfold Sentence.holds at h
  rw [hcount] at h
  have hempty : s.cells ∩ B = ∅ := Finset.card_eq_zero.mp (by omega)
  intro c hc hcB
  have : c ∈ s.cells ∩ B := Finset.mem_inter.mpr ⟨hc, hcB⟩
  simp [hempty] at this

theorem Sentence.known_mines_sub {B : Finset Cell} {s : Sentence} (h : s.holds B) :
    ∀ c ∈ s.known_mines, c ∈ B := by
  rw [Sentence.known_mines_eq]
  split
  · rename_i hcard
    exact fun c hc => Sentence.extract_mines h hcard hc
  · simp

theorem Sentence.known_safes_notmem {B : Finset Cell} {s : Sentence} (h : s.holds B) :
    ∀ c ∈ s.known_safes, c ∉ B := by
  rw [Sentence.known_safes_eq]
  split
  · rename_i hcount
    exact Sentence.extract_safes h hcount
  · simp

theorem Sentence.known_mines_sub_cells (s : Sentence) : s.known_mines ⊆ s.cells := by
  rw [Sentence.known_mines_eq]
  split
  · exact Finset.Subset.refl _
  · exact Finset.empty_subset _

theorem Sentence.known_safes_sub_cells (s : Sentence) : s.known_safes ⊆ s.cells := by
  rw [Sentence.known_safes_eq]
  split
  · exact Finset.Subset.refl _
  · exact Finset.empty_subset _

/-! ### Effect of single marks on the state -/

theorem Sentence.mem_mark_mine_cells {s : Sentence} {c d : Cell} :
    d ∈ (s.mark_mine c).cells ↔ d ∈ s.cells ∧ d ≠ c := by
  unfold Sentence.mark_mine
  split
  · simp [Finset.mem_erase, and_comm]
  · rename_i hc
    constructor
    · intro hd
      exact ⟨hd, fun he => hc (he ▸ hd)⟩
    · exact And.left

theorem Sentence.mem_mark_safe_cells {s : Sentence} {c d : Cell} :
    d ∈ (s.mark_safe c).cells ↔ d ∈ s.cells ∧ d ≠ c := by
  unfold Sentence.mark_safe
  split
  · simp [Finset.mem_erase, and_comm]
  · rename_i hc
    constructor
    · intro hd
      exact ⟨hd, fun he => hc (he ▸ hd)⟩
    · exact And.left

theorem MinesweeperAI.sound_mark_mine {B : Finset Cell} {st : MinesweeperAI} {c : Cell}
    (h : st.sound B) (hc : c ∈ B) : (st.mark_mine c).sound B := by
  obtain ⟨hm, hs, hk⟩ := h
  refine ⟨?_, hs, ?_⟩
  · exact Finset.insert_subset hc hm
  · intro t ht
    rw [MinesweeperAI.mark_mine] at ht
    simp only [List.mem_map] at ht
    obtain ⟨u, hu, rfl⟩ := ht
    exact Sentence.holds_mark_mine (hk u hu) hc

theorem MinesweeperAI.sound_mark_safe {B : Finset Cell} {st : MinesweeperAI} {c : Cell}
    (h : st.sound B) (hc : c ∉ B) : (st.mark_safe c).sound B := by
  obtain ⟨hm, hs, hk⟩ := h
  refine ⟨hm, ?_, ?_⟩
  · intro x hx
    rcases Finset.mem_insert.mp hx with he | hx'
    · exact he ▸ hc
    · exact hs x hx'
  · intro t ht
    rw [MinesweeperAI.mark_safe] at ht
    simp only [List.mem_map] at ht
    obtain ⟨u, hu, rfl⟩ := ht
    exact Sentence.holds_mark_safe (hk u hu) hc

theorem MinesweeperAI.sep_mark_mine {st : MinesweeperAI} (h : st.sep) (c : Cell) :
    (st.mark_mine c).sep := by
  intro t ht d hd
  rw [MinesweeperAI.mark_mine] at ht
  simp only [List.mem_map] at ht
  obtain ⟨u, hu, rfl⟩ := ht
  obtain ⟨hdu, hdc⟩ := Sentence.mem_mark_mine_cells.mp hd
  obtain ⟨h1, h2⟩ := h u hu d hdu
  exact ⟨by simp [MinesweeperAI.mark_mine, Finset.mem_insert, hdc, h1], h2⟩

theorem MinesweeperAI.sep_mark_safe {st : MinesweeperAI} (h : st.sep) (c : Cell) :
    (st.mark_safe c).sep := by
  intro t ht d hd
  rw [MinesweeperAI.mark_safe] at ht
  simp only [List.mem_map] at ht
  obtain ⟨u, hu, rfl⟩ := ht
  obtain ⟨hdu, hdc⟩ := Sentence.mem_mark_safe_cells.mp hd
  obtain ⟨h1, h2⟩ := h u hu d hdu
  exact ⟨h1, by simp [MinesweeperAI.mark_safe, Finset.mem_insert, hdc, h2]⟩

theorem MinesweeperAI.bounded_mark_mine {U : Finset Cell} {st : MinesweeperAI} {c : Cell}
    (h : st.bounded U) (hc : c ∈ U) : (st.mark_mine c).bounded U := by
  obtain ⟨hm, hs, hk⟩ := h
  refine ⟨Finset.insert_subset hc hm, hs, ?_⟩
  intro t ht
  rw [MinesweeperAI.mark_mine] at ht
  simp only [List.mem_map] at ht
  obtain ⟨u, hu, rfl⟩ := ht
  intro d hd
  exact hk u hu (Sentence.mem_mark_mine_cells.mp hd).1

theorem MinesweeperAI.bounded_mark_safe {U : Finset Cell} {st : MinesweeperAI} {c : Cell}
    (h : st.bounded U) (hc : c ∈ U) : (st.mark_safe c).bounded U := by
  obtain ⟨hm, hs, hk⟩ := h
  refine ⟨hm, Finset.insert_subset hc hs, ?_⟩
  intro t ht
  rw [MinesweeperAI.mark_safe] at ht
  simp only [List.mem_map] at ht
  obtain ⟨u, hu, rfl⟩ := ht
  intro d hd
  exact hk u hu (Sentence.mem_mark_safe_cells.mp hd).1

/-! ### Effect of marking a whole list of cells -/

theorem foldl_mark_mine_mines (l : List Cell) (st : MinesweeperAI) :
    (l.foldl MinesweeperAI.mark_mine st).mines = st.mines ∪ l.toFinset := by
  induction l generalizing st with
  | nil => simp
  | cons c l ih =>
    rw [List.foldl_cons, ih]
    ext x
    simp [MinesweeperAI.mark_mine, or_comm, or_left_comm]

theorem foldl_mark_mine_safes (l : List Cell) (st : MinesweeperAI) :
    (l.foldl MinesweeperAI.mark_mine st).safes = st.safes := by
  induction l generalizing st with
  | nil => rfl
  | cons c l ih => rw [List.foldl_cons, ih]; rfl

theorem foldl_mark_mine_moves (l : List Cell) (st : MinesweeperAI) :
    (l.foldl MinesweeperAI.mark_mine st).moves_made = st.moves_made := by
  induction l generalizing st with
  | nil => rfl
  | cons c l ih => rw [List.foldl_cons, ih]; rfl

theorem foldl_mark_mine_height (l : List Cell) (st : MinesweeperAI) :
    (l.foldl MinesweeperAI.mark_mine st).height = st.height := by
  induction l generalizing st with
  | nil => rfl
  | cons c l ih => rw [List.foldl_cons, ih]; rfl

theorem foldl_mark_mine_width (l : List Cell) (st : MinesweeperAI) :
    (l.foldl MinesweeperAI.mark_mine st).width = st.width := by
  induction l generalizing st with
  | nil => rfl
  | cons c l ih => rw [List.foldl_cons, ih]; rfl

theorem foldl_mark_safe_safes (l : List Cell) (st : MinesweeperAI) :
    (l.foldl MinesweeperAI.mark_safe st).safes = st.safes ∪ l.toFinset := by
  induction l generalizing st with
  | nil => simp
  | cons c l ih =>
    rw [List.foldl_cons, ih]
    ext x
    simp [MinesweeperAI.mark_safe, or_comm, or_left_comm]

theorem foldl_mark_safe_mines (l : List Cell) (st : MinesweeperAI) :
    (l.foldl MinesweeperAI.mark_safe st).mines = st.mines := by
  induction l generalizing st with
  | nil => rfl
  | cons c l ih => rw [List.foldl_cons, ih]; rfl

theorem foldl_mark_safe_moves (l : List Cell) (st : MinesweeperAI) :
    (l.foldl MinesweeperAI.mark_safe st).moves_made = st.moves_made := by
  induction l generalizing st with
  | nil => rfl
  | cons c l ih => rw [List.foldl_cons, ih]; rfl

theorem foldl_mark_safe_height (l : List Cell) (st : MinesweeperAI) :
    (l.foldl MinesweeperAI.mark_safe st).height = st.height := by
  induction l generalizing st with
  | nil => rfl
  | cons c l ih => rw [List.foldl_cons, ih]; rfl

theorem foldl_mark_safe_width (l : List Cell) (st : MinesweeperAI) :
    (l.foldl MinesweeperAI.mark_safe st).width = st.width := by
  induction l generalizing st with
  | nil => rfl
  | cons c l ih => rw [List.foldl_cons, ih]; rfl

theorem sound_foldl_mark_mine {B : Finset Cell} {l : List Cell} {st : MinesweeperAI}
    (hl : ∀ c ∈ l, c ∈ B) (h : st.sound B) :
    (l.foldl MinesweeperAI.mark_mine st).sound B :=
  List.foldlRecOn l MinesweeperAI.mark_mine st h
    (fun _ hst c hc => MinesweeperAI.sound_mark_mine hst (hl c hc))

theorem sound_foldl_mark_safe {B : Finset Cell} {l : List Cell} {st : MinesweeperAI}
    (hl : ∀ c ∈ l, c ∉ B) (h : st.sound B) :
    (l.foldl MinesweeperAI.mark_safe st).sound B :=
  List.foldlRecOn l MinesweeperAI.mark_safe st h
    (fun _ hst c hc => MinesweeperAI.sound_mark_safe hst (hl c hc))

theorem sep_foldl_mark_mine {l : List Cell} {st : MinesweeperAI} (h : st.sep) :
    (l.foldl MinesweeperAI.mark_mine st).sep :=
  List.foldlRecOn l MinesweeperAI.mark_mine st h
    (fun _ hst c _ => MinesweeperAI.sep_mark_mine hst c)

theorem sep_foldl_mark_safe {l : List Cell} {st : MinesweeperAI} (h : st.sep) :
    (l.foldl MinesweeperAI.mark_safe st).sep :=
  List.foldlRecOn l MinesweeperAI.mark_safe st h
    (fun _ hst c _ => MinesweeperAI.sep_mark_safe hst c)

theorem bounded_foldl_mark_mine {U : Finset Cell} {l : List Cell} {st : MinesweeperAI}
    (hl : ∀ c ∈ l, c ∈ U) (h : st.bounded U) :
    (l.foldl MinesweeperAI.mark_mine st).bounded U :=
  List.foldlRecOn l MinesweeperAI.mark_mine st h
    (fun _ hst c hc => MinesweeperAI.bounded_mark_mine hst (hl c hc))

theorem bounded_foldl_mark_safe {U : Finset Cell} {l : List Cell} {st : MinesweeperAI}
    (hl : ∀ c ∈ l, c ∈ U) (h : st.bounded U) :
    (l.foldl MinesweeperAI.mark_safe st).bounded U :=
  List.foldlRecOn l MinesweeperAI.mark_safe st h
    (fun _ hst c hc => MinesweeperAI.bounded_mark_safe hst (hl c hc))

/-! ### The marking sub-pass -/

theorem default_known_mines : (⟨∅, 0⟩ : Sentence).known_mines = ∅ := by
  rw [Sentence.known_mines_eq]
  simp

theorem default_known_safes : (⟨∅, 0⟩ : Sentence).known_safes = ∅ := by
  rw [Sentence.known_safes_eq]
  simp

theorem cellSort_empty : cellSort ∅ = [] := rfl

theorem getD_known_mines_mem_B {B : Finset Cell} {st : MinesweeperAI} (h : st.sound B)
    (i : ℕ) : ∀ c ∈ (st.knowledge.getD i ⟨∅, 0⟩).known_mines, c ∈ B := by
  rcases List.getD_mem_or st.knowledge i ⟨∅, 0⟩ with hmem | hdef
  · exact Sentence.known_mines_sub (h.2.2 _ hmem)
  · rw [hdef, default_known_mines]
    simp

theorem getD_known_safes_notmem_B {B : Finset Cell} {st : MinesweeperAI} (h : st.sound B)
    (i : ℕ) : ∀ c ∈ (st.knowledge.getD i ⟨∅, 0⟩).known_safes, c ∉ B := by
  rcases List.getD_mem_or st.knowledge i ⟨∅, 0⟩ with hmem | hdef
  · exact Sentence.known_safes_notmem (h.2.2 _ hmem)
  · rw [hdef, default_known_safes]
    simp

theorem getD_known_mines_sep {st : MinesweeperAI} (h : st.sep) (i : ℕ) :
    ∀ c ∈ (st.knowledge.getD i ⟨∅, 0⟩).known_mines, c ∉ st.mines ∧ c ∉ st.safes := by
  rcases List.getD_mem_or st.knowledge i ⟨∅, 0⟩ with hmem | hdef
  · exact fun c hc => h _ hmem c (Sentence.known_mines_sub_cells _ hc)
  · rw [hdef, default_known_mines]
    simp

theorem getD_known_safes_sep {st : MinesweeperAI} (h : st.sep) (i : ℕ) :
    ∀ c ∈ (st.knowledge.getD i ⟨∅, 0⟩).known_safes, c ∉ st.mines ∧ c ∉ st.safes := by
  rcases List.getD_mem_or st.knowledge i ⟨∅, 0⟩ with hmem | hdef
  · exact fun c hc => h _ hmem c (Sentence.known_safes_sub_cells _ hc)
  · rw [hdef, default_known_safes]
    simp

theorem getD_known_mines_bounded {U : Finset Cell} {st : MinesweeperAI} (h : st.bounded U)
    (i : ℕ) : ∀ c ∈ (st.knowledge.getD i ⟨∅, 0⟩).known_mines, c ∈ U := by
  rcases List.getD_mem_or st.knowledge i ⟨∅, 0⟩ with hmem | hdef
  · exact fun c hc => h.2.2 _ hmem (Sentence.known_mines_sub_cells _ hc)
  · rw [hdef, default_known_mines]
    simp

theorem getD_known_safes_bounded {U : Finset Cell} {st : MinesweeperAI} (h : st.bounded U)
    (i : ℕ) : ∀ c ∈ (st.knowledge.getD i ⟨∅, 0⟩).known_safes, c ∈ U := by
  rcases List.getD_mem_or st.knowledge i ⟨∅, 0⟩ with hmem | hdef
  · exact fun c hc => h.2.2 _ hmem (Sentence.known_safes_sub_cells _ hc)
  · rw [hdef, default_known_safes]
    simp

theorem markStep_sound {B : Finset Cell} {p : MinesweeperAI × Finset Cell}
    (hp : p.1.sound B) (i : ℕ) : (MinesweeperAI.markStep p i).1.sound B := by
  simp only [MinesweeperAI.markStep]
  have h1 : ((cellSort (p.1.knowledge.getD i ⟨∅, 0⟩).known_mines).foldl
      MinesweeperAI.mark_mine p.1).sound B :=
    sound_foldl_mark_mine
      (fun c hc => getD_known_mines_mem_B hp i c (mem_cellSort.mp hc)) hp
  exact sound_foldl_mark_safe
    (fun c hc => getD_known_safes_notmem_B h1 i c (mem_cellSort.mp hc)) h1

theorem markStep_sep {p : MinesweeperAI × Finset Cell}
    (hp : p.1.sep) (i : ℕ) : (MinesweeperAI.markStep p i).1.sep := by
  simp only [MinesweeperAI.markStep]
  exact sep_foldl_mark_safe (sep_foldl_mark_mine hp)

theorem markStep_bounded {U : Finset Cell} {p : MinesweeperAI × Finset Cell}
    (hp : p.1.bounded U) (i : ℕ) : (MinesweeperAI.markStep p i).1.bounded U := by
  simp only [MinesweeperAI.markStep]
  have h1 : ((cellSort (p.1.knowledge.getD i ⟨∅, 0⟩).known_mines).foldl
      MinesweeperAI.mark_mine p.1).bounded U :=
    bounded_foldl_mark_mine
      (fun c hc => getD_known_mines_bounded hp i c (mem_cellSort.mp hc)) hp
  exact bounded_foldl_mark_safe
    (fun c hc => getD_known_safes_bounded h1 i c (mem_cellSort.mp hc)) h1

theorem markStep_fields (p : MinesweeperAI × Finset Cell) (i : ℕ) :
    (MinesweeperAI.markStep p i).1.moves_made = p.1.moves_made ∧
    (MinesweeperAI.markStep p i).1.height = p.1.height ∧
    (MinesweeperAI.markStep p i).1.width = p.1.width ∧
    p.1.mines ⊆ (MinesweeperAI.markStep p i).1.mines ∧
    p.1.safes ⊆ (MinesweeperAI.markStep p i).1.safes := by
  simp only [MinesweeperAI.markStep]
  refine ⟨?_, ?_, ?_, ?_, ?_⟩
  · rw [foldl_mark_safe_moves, foldl_mark_mine_moves]
  · rw [foldl_mark_safe_height, foldl_mark_mine_height]
  · rw [foldl_mark_safe_width, foldl_mark_mine_width]
  · rw [foldl_mark_safe_mines, foldl_mark_mine_mines]
    exact Finset.subset_union_left
  · rw [foldl_mark_safe_safes, foldl_mark_mine_safes]
    exact Finset.subset_union_left

theorem markStep_snd_sub (p : MinesweeperAI × Finset Cell) (i : ℕ) :
    p.2 ⊆ (MinesweeperAI.markStep p i).2 := by
  simp only [MinesweeperAI.markStep]
  exact fun x hx => Finset.mem_union.mpr (Or.inl (Finset.mem_union.mpr (Or.inl hx)))

theorem markStep_of_snd_empty {p : MinesweeperAI × Finset Cell} {i : ℕ}
    (h : (MinesweeperAI.markStep p i).2 = ∅) : MinesweeperAI.markStep p i = p := by
  simp only [MinesweeperAI.markStep] at h
  rw [Finset.union_assoc] at h
  obtain ⟨hp2, hrest⟩ := Finset.union_eq_empty.mp h
  obtain ⟨hkm, hks⟩ := Finset.union_eq_empty.mp hrest
  rw [hkm, cellSort_empty, List.foldl_nil] at hks
  simp only [MinesweeperAI.markStep, hkm, cellSort_empty, List.foldl_nil, hks,
    Finset.union_empty]

theorem markPass_sound {B : Finset Cell} {st : MinesweeperAI} (h : st.sound B) :
    (st.markPass).1.sound B := by
  rw [MinesweeperAI.markPass]
  exact List.foldlRecOn (motive := fun q => q.1.sound B)
    (List.range st.knowledge.length) MinesweeperAI.markStep (st, ∅)
    (h : (st, (∅ : Finset Cell)).1.sound B)
    (fun _ hp i _ => markStep_sound hp i)

theorem markPass_sep {st : MinesweeperAI} (h : st.sep) : (st.markPass).1.sep := by
  rw [MinesweeperAI.markPass]
  exact List.foldlRecOn (motive := fun q => q.1.sep)
    (List.range st.knowledge.length) MinesweeperAI.markStep (st, ∅)
    (h : (st, (∅ : Finset Cell)).1.sep)
    (fun _ hp i _ => markStep_sep hp i)

theorem markPass_bounded {U : Finset Cell} {st : MinesweeperAI} (h : st.bounded U) :
    (st.markPass).1.bounded U := by
  rw [MinesweeperAI.markPass]
  exact List.foldlRecOn (motive := fun q => q.1.bounded U)
    (List.range st.knowledge.length) MinesweeperAI.markStep (st, ∅)
    (h : (st, (∅ : Finset Cell)).1.bounded U)
    (fun _ hp i _ => markStep_bounded hp i)

theorem markPass_fields (st : MinesweeperAI) :
    (st.markPass).1.moves_made = st.moves_made ∧
    (st.markPass).1.height = st.height ∧
    (st.markPass).1.width = st.width ∧
    st.mines ⊆ (st.markPass).1.mines ∧
    st.safes ⊆ (st.markPass).1.safes := by
  rw [MinesweeperAI.markPass]
  refine List.foldlRecOn
    (motive := fun q => q.1.moves_made = st.moves_made ∧ q.1.height = st.height ∧
      q.1.width = st.width ∧ st.mines ⊆ q.1.mines ∧ st.safes ⊆ q.1.safes)
    (List.range st.knowledge.length) MinesweeperAI.markStep (st, ∅)
    ?_ ?_
  · exact ⟨rfl, rfl, rfl, Finset.Subset.refl _, Finset.Subset.refl _⟩
  · intro p hp i _
    obtain ⟨h1, h2, h3, h4, h5⟩ := markStep_fields p i
    exact ⟨h1.trans hp.1, h2.trans hp.2.1, h3.trans hp.2.2.1,
      hp.2.2.2.1.trans h4, hp.2.2.2.2.trans h5⟩

theorem foldl_markStep_of_snd_empty :
    ∀ (l : List ℕ) (p : MinesweeperAI × Finset Cell),
      (l.foldl MinesweeperAI.markStep p).2 = ∅ → l.foldl MinesweeperAI.markStep p = p := by
  intro l
  induction l with
  | nil => intro p _; rfl
  | cons i l ih =>
    intro p h
    rw [List.foldl_cons] at h ⊢
    have h1 := ih (MinesweeperAI.markStep p i) h
    rw [h1] at h ⊢
    exact markStep_of_snd_empty h

theorem markPass_of_snd_empty {st : MinesweeperAI} (h : (st.markPass).2 = ∅) :
    (st.markPass).1 = st := by
  have h2 := foldl_markStep_of_snd_empty (List.range st.knowledge.length) (st, ∅) h
  rw [MinesweeperAI.markPass, h2]

theorem markStep_growth {U : Finset Cell} {st0 : MinesweeperAI}
    {p : MinesweeperAI × Finset Cell}
    (hp : p.1.sep ∧ p.1.bounded U ∧ st0.mines ⊆ p.1.mines ∧ st0.safes ⊆ p.1.safes ∧
      p.2 ∩ (st0.mines ∪ st0.safes) = ∅ ∧ p.2 ⊆ p.1.mines ∪ p.1.safes) (i : ℕ) :
    (MinesweeperAI.markStep p i).1.sep ∧ (MinesweeperAI.markStep p i).1.bounded U ∧
    st0.mines ⊆ (MinesweeperAI.markStep p i).1.mines ∧
    st0.safes ⊆ (MinesweeperAI.markStep p i).1.safes ∧
    (MinesweeperAI.markStep p i).2 ∩ (st0.mines ∪ st0.safes) = ∅ ∧
    (MinesweeperAI.markStep p i).2 ⊆
      (MinesweeperAI.markStep p i).1.mines ∪ (MinesweeperAI.markStep p i).1.safes := by
  obtain ⟨hsep, hbnd, hm0, hs0, hint, hsub⟩ := hp
  set km := (p.1.knowledge.getD i ⟨∅, 0⟩).known_mines with hkmdef
  set st1 := (cellSort km).foldl MinesweeperAI.mark_mine p.1 with hst1def
  set ks := (st1.knowledge.getD i ⟨∅, 0⟩).known_safes with hksdef
  set st2 := (cellSort ks).foldl MinesweeperAI.mark_safe st1 with hst2def
  have hsep1 : st1.sep := sep_foldl_mark_mine hsep
  have hsep2 : st2.sep := sep_foldl_mark_safe hsep1
  have hkmU : ∀ c ∈ km, c ∈ U := getD_known_mines_bounded hbnd i
  have hbnd1 : st1.bounded U :=
    bounded_foldl_mark_mine (fun c hc => hkmU c (mem_cellSort.mp hc)) hbnd
  have hksU : ∀ c ∈ ks, c ∈ U := getD_known_safes_bounded hbnd1 i
  have hbnd2 : st2.bounded U :=
    bounded_foldl_mark_safe (fun c hc => hksU c (mem_cellSort.mp hc)) hbnd1
  have hmines1 : st1.mines = p.1.mines ∪ km := by
    rw [hst1def, foldl_mark_mine_mines, cellSort_toFinset]
  have hsafes1 : st1.safes = p.1.safes := by
    rw [hst1def, foldl_mark_mine_safes]
  have hmines2 : st2.mines = st1.mines := by
    rw [hst2def, foldl_mark_safe_mines]
  have hsafes2 : st2.safes = st1.safes ∪ ks := by
    rw [hst2def, foldl_mark_safe_safes, cellSort_toFinset]
  have hkmsep : ∀ c ∈ km, c ∉ p.1.mines ∧ c ∉ p.1.safes := getD_known_mines_sep hsep i
  have hkssep : ∀ c ∈ ks, c ∉ st1.mines ∧ c ∉ st1.safes := getD_known_safes_sep hsep1 i
  refine ⟨hsep2, hbnd2, ?_, ?_, ?_, ?_⟩
  · show st0.mines ⊆ st2.mines
    rw [hmines2, hmines1]
    exact hm0.trans Finset.subset_union_left
  · show st0.safes ⊆ st2.safes
    rw [hsafes2, hsafes1]
    exact hs0.trans Finset.subset_union_left
  · show (p.2 ∪ km ∪ ks) ∩ (st0.mines ∪ st0.safes) = ∅
    ext x
    simp only [Finset.mem_inter, Finset.mem_union, Finset.not_mem_empty, iff_false,
      not_and]
    rintro ((hx2 | hxkm) | hxks) hx0
    · have hmem : x ∈ p.2 ∩ (st0.mines ∪ st0.safes) :=
        Finset.mem_inter.mpr ⟨hx2, Finset.mem_union.mpr hx0⟩
      rw [hint] at hmem
      exact absurd hmem (Finset.not_mem_empty x)
    · rcases hx0 with hx0 | hx0
      · exact (hkmsep x hxkm).1 (hm0 hx0)
      · exact (hkmsep x hxkm).2 (hs0 hx0)
    · rcases hx0 with hx0 | hx0
      · have : x ∈ st1.mines := by
          rw [hmines1]
          exact Finset.mem_union.mpr (Or.inl (hm0 hx0))
        exact (hkssep x hxks).1 this
      · have : x ∈ st1.safes := by
          rw [hsafes1]
          exact hs0 hx0
        exact (hkssep x hxks).2 this
  · show p.2 ∪ km ∪ ks ⊆ st2.mines ∪ st2.safes
    rw [hmines2, hmines1, hsafes2, hsafes1]
    intro x hx
    rcases Finset.mem_union.mp hx with hx1 | hxks
    · rcases Finset.mem_union.mp hx1 with hx2 | hxkm
      · have h2 := hsub hx2
        rcases Finset.mem_union.mp h2 with h3 | h3
        · exact Finset.mem_union.mpr (Or.inl (Finset.mem_union.mpr (Or.inl h3)))
        · exact Finset.mem_union.mpr (Or.inr (Finset.mem_union.mpr (Or.inl h3)))
      · exact Finset.mem_union.mpr (Or.inl (Finset.mem_union.mpr (Or.inr hxkm)))
    · exact Finset.mem_union.mpr (Or.inr (Finset.mem_union.mpr (Or.inr hxks)))

theorem markPass_growth {U : Finset Cell} {st : MinesweeperAI}
    (hsep : st.sep) (hbnd : st.bounded U) :
    (st.markPass).1.sep ∧ (st.markPass).1.bounded U ∧
    st.mines ⊆ (st.markPass).1.mines ∧ st.safes ⊆ (st.markPass).1.safes ∧
    (st.markPass).2 ∩ (st.mines ∪ st.safes) = ∅ ∧
    (st.markPass).2 ⊆ (st.markPass).1.mines ∪ (st.markPass).1.safes := by
  rw [MinesweeperAI.markPass]
  refine List.foldlRecOn
    (motive := fun q => q.1.sep ∧ q.1.bounded U ∧ st.mines ⊆ q.1.mines ∧
      st.safes ⊆ q.1.safes ∧ q.2 ∩ (st.mines ∪ st.safes) = ∅ ∧
      q.2 ⊆ q.1.mines ∪ q.1.safes)
    (List.range st.knowledge.length) MinesweeperAI.markStep (st, ∅)
    ?_ ?_
  · exact ⟨hsep, hbnd, Finset.Subset.refl _, Finset.Subset.refl _, by simp,
      Finset.empty_subset _⟩
  · intro p hp i _
    exact markStep_growth hp i

/-! ### The deriving sub-pass -/

theorem mem_derivedSentences {kb : List Sentence} {s1 s2 : Sentence}
    (h1 : s1 ∈ kb) (h2 : s2 ∈ kb) (hsub : s1.cells ⊆ s2.cells)
    (hne : s1.cells ≠ s2.cells) :
    ({ cells := s2.cells \ s1.cells, count := s2.count - s1.count } : Sentence) ∈
      MinesweeperAI.derivedSentences kb := by
  unfold MinesweeperAI.derivedSentences
  rw [List.mem_flatMap]
  refine ⟨s1, h1, ?_⟩
  rw [List.mem_filterMap]
  exact ⟨s2, h2, by rw [if_pos ⟨hsub, hne⟩]⟩

theorem derivedSentences_mem {kb : List Sentence} {t : Sentence}
    (h : t ∈ MinesweeperAI.derivedSentences kb) :
    ∃ s1 ∈ kb, ∃ s2 ∈ kb, s1.cells ⊆ s2.cells ∧ s1.cells ≠ s2.cells ∧
      t = { cells := s2.cells \ s1.cells, count := s2.count - s1.count } := by
  unfold MinesweeperAI.derivedSentences at h
  rw [List.mem_flatMap] at h
  obtain ⟨s1, h1, h⟩ := h
  rw [List.mem_filterMap] at h
  obtain ⟨s2, h2, h⟩ := h
  by_cases hc : s1.cells ⊆ s2.cells ∧ s1.cells ≠ s2.cells
  · rw [if_pos hc] at h
    exact ⟨s1, h1, s2, h2, hc.1, hc.2, (Option.some_injective _ h).symm⟩
  · rw [if_neg hc] at h
    exact absurd h (Option.noConfusion)

theorem holds_sdiff {B : Finset Cell} {s1 s2 : Sentence} (h1 : s1.holds B)
    (h2 : s2.holds B) (hsub : s1.cells ⊆ s2.cells) :
    ({ cells := s2.cells \ s1.cells, count := s2.count - s1.count } : Sentence).holds B := by
  unfold Sentence.holds at *
  have heq : (s2.cells \ s1.cells) ∩ B = (s2.cells ∩ B) \ (s1.cells ∩ B) := by
    ext x
    simp only [Finset.mem_inter, Finset.mem_sdiff]
    constructor
    · rintro ⟨⟨hx2, hx1⟩, hxB⟩
      exact ⟨⟨hx2, hxB⟩, fun hh => hx1 hh.1⟩
    · rintro ⟨⟨hx2, hxB⟩, hx1⟩
      exact ⟨⟨hx2, fun hh => hx1 ⟨hh, hxB⟩⟩, hxB⟩
  have hss : s1.cells ∩ B ⊆ s2.cells ∩ B := by
    intro x hx
    rw [Finset.mem_inter] at *
    exact ⟨hsub hx.1, hx.2⟩
  have hcard : ((s2.cells ∩ B) \ (s1.cells ∩ B)).card =
      (s2.cells ∩ B).card - (s1.cells ∩ B).card := Finset.card_sdiff hss
  have hle : (s1.cells ∩ B).card ≤ (s2.cells ∩ B).card := Finset.card_le_card hss
  show ((({ cells := s2.cells \ s1.cells, count := s2.count - s1.count } :
    Sentence).cells ∩ B).card : ℤ) = s2.count - s1.count
  simp only [heq, hcard]
  omega

theorem derivedSentences_holds {B : Finset Cell} {st : MinesweeperAI}
    (h : st.sound B) : ∀ t ∈ MinesweeperAI.derivedSentences st.knowledge, t.holds B := by
  intro t ht
  obtain ⟨s1, h1, s2, h2, hsub, _, rfl⟩ := derivedSentences_mem ht
  exact holds_sdiff (h.2.2 s1 h1) (h.2.2 s2 h2) hsub

theorem derivedSentences_cells_sub {st : MinesweeperAI} {t : Sentence}
    (ht : t ∈ MinesweeperAI.derivedSentences st.knowledge) :
    ∃ s2 ∈ st.knowledge, t.cells ⊆ s2.cells := by
  obtain ⟨s1, _, s2, h2, _, _, rfl⟩ := derivedSentences_mem ht
  exact ⟨s2, h2, Finset.sdiff_subset⟩

theorem foldl_appendNew_fields (l : List Sentence) (p : MinesweeperAI × ℕ) :
    (l.foldl MinesweeperAI.appendNew p).1.mines = p.1.mines ∧
    (l.foldl MinesweeperAI.appendNew p).1.safes = p.1.safes ∧
    (l.foldl MinesweeperAI.appendNew p).1.moves_made = p.1.moves_made ∧
    (l.foldl MinesweeperAI.appendNew p).1.height = p.1.height ∧
    (l.foldl MinesweeperAI.appendNew p).1.width = p.1.width := by
  induction l generalizing p with
  | nil => exact ⟨rfl, rfl, rfl, rfl, rfl⟩
  | cons s l ih =>
    rw [List.foldl_cons]
    have h := ih (MinesweeperAI.appendNew p s)
    have hstep : (MinesweeperAI.appendNew p s).1.mines = p.1.mines ∧
        (MinesweeperAI.appendNew p s).1.safes = p.1.safes ∧
        (MinesweeperAI.appendNew p s).1.moves_made = p.1.moves_made ∧
        (MinesweeperAI.appendNew p s).1.height = p.1.height ∧
        (MinesweeperAI.appendNew p s).1.width = p.1.width := by
      unfold MinesweeperAI.appendNew
      split
      · exact ⟨rfl, rfl, rfl, rfl, rfl⟩
      · exact ⟨rfl, rfl, rfl, rfl, rfl⟩
    exact ⟨h.1.trans hstep.1, h.2.1.trans hstep.2.1, h.2.2.1.trans hstep.2.2.1,
      h.2.2.2.1.trans hstep.2.2.2.1, h.2.2.2.2.trans hstep.2.2.2.2⟩

theorem foldl_appendNew_kn_mono (l : List Sentence) (p : MinesweeperAI × ℕ)
    {t : Sentence} (ht : t ∈ p.1.knowledge) :
    t ∈ (l.foldl MinesweeperAI.appendNew p).1.knowledge := by
  induction l generalizing p with
  | nil => exact ht
  | cons s l ih =>
    rw [List.foldl_cons]
    apply ih
    unfold MinesweeperAI.appendNew
    split
    · exact ht
    · exact List.mem_append.mpr (Or.inl ht)

theorem foldl_appendNew_snd_mono (l : List Sentence) (p : MinesweeperAI × ℕ) :
    p.2 ≤ (l.foldl MinesweeperAI.appendNew p).2 := by
  induction l generalizing p with
  | nil => exact le_refl _
  | cons s l ih =>
    rw [List.foldl_cons]
    refine le_trans ?_ (ih (MinesweeperAI.appendNew p s))
    unfold MinesweeperAI.appendNew
    split
    · exact le_refl _
    · exact Nat.le_succ _

theorem foldl_appendNew_of_no_change (l : List Sentence) (p : MinesweeperAI × ℕ)
    (h : (l.foldl MinesweeperAI.appendNew p).2 = p.2) :
    l.foldl MinesweeperAI.appendNew p = p := by
  induction l generalizing p with
  | nil => rfl
  | cons s l ih =>
    rw [List.foldl_cons] at h ⊢
    by_cases hc : s ∈ p.1.knowledge
    · have hstep : MinesweeperAI.appendNew p s = p := by
        unfold MinesweeperAI.appendNew
        rw [if_pos hc]
      rw [hstep] at h ⊢
      exact ih p h
    · exfalso
      have hstep : (MinesweeperAI.appendNew p s).2 = p.2 + 1 := by
        unfold MinesweeperAI.appendNew
        rw [if_neg hc]
      have hmono := foldl_appendNew_snd_mono l (MinesweeperAI.appendNew p s)
      rw [hstep] at hmono
      omega

theorem foldl_appendNew_new (l : List Sentence) (p : MinesweeperAI × ℕ)
    (h : (l.foldl MinesweeperAI.appendNew p).2 ≠ p.2) :
    ∃ t ∈ l, t ∉ p.1.knowledge ∧ t ∈ (l.foldl MinesweeperAI.appendNew p).1.knowledge := by
  induction l generalizing p with
  | nil => exact absurd rfl h
  | cons s l ih =>
    rw [List.foldl_cons] at h ⊢
    by_cases hc : s ∈ p.1.knowledge
    · have hstep : MinesweeperAI.appendNew p s = p := by
        unfold MinesweeperAI.appendNew
        rw [if_pos hc]
      rw [hstep] at h ⊢
      obtain ⟨t, htl, htn, htm⟩ := ih p h
      exact ⟨t, List.mem_cons_of_mem s htl, htn, htm⟩
    · refine ⟨s, List.mem_cons_self s l, hc, ?_⟩
      apply foldl_appendNew_kn_mono
      unfold MinesweeperAI.appendNew
      rw [if_neg hc]
      exact List.mem_append.mpr (Or.inr (List.mem_singleton.mpr rfl))

theorem foldl_appendNew_mem (l : List Sentence) (p : MinesweeperAI × ℕ)
    {t : Sentence} (ht : t ∈ (l.foldl MinesweeperAI.appendNew p).1.knowledge) :
    t ∈ p.1.knowledge ∨ t ∈ l := by
  induction l generalizing p with
  | nil => exact Or.inl ht
  | cons s l ih =>
    rw [List.foldl_cons] at ht
    rcases ih (MinesweeperAI.appendNew p s) ht with hm | hm
    · revert hm
      unfold MinesweeperAI.appendNew
      split
      · exact fun hm => Or.inl hm
      · intro hm
        rcases List.mem_append.mp hm with hm | hm
        · exact Or.inl hm
        · exact Or.inr (List.mem_cons.mpr (Or.inl (List.mem_singleton.mp hm)))
    · exact Or.inr (List.mem_cons_of_mem s hm)

theorem derivePass_fields (st : MinesweeperAI) :
    (st.derivePass).1.mines = st.mines ∧
    (st.derivePass).1.safes = st.safes ∧
    (st.derivePass).1.moves_made = st.moves_made ∧
    (st.derivePass).1.height = st.height ∧
    (st.derivePass).1.width = st.width :=
  foldl_appendNew_fields (MinesweeperAI.derivedSentences st.knowledge) (st, 0)

theorem derivePass_kn_mono {st : MinesweeperAI} {t : Sentence} (ht : t ∈ st.knowledge) :
    t ∈ (st.derivePass).1.knowledge :=
  foldl_appendNew_kn_mono _ (st, 0) ht

theorem derivePass_of_no_change {st : MinesweeperAI} (h : (st.derivePass).2 = 0) :
    (st.derivePass).1 = st := by
  have h2 := foldl_appendNew_of_no_change (MinesweeperAI.derivedSentences st.knowledge)
    (st, 0) h
  rw [MinesweeperAI.derivePass, h2]

theorem derivePass_new {st : MinesweeperAI} (h : (st.derivePass).2 ≠ 0) :
    ∃ t ∈ MinesweeperAI.derivedSentences st.knowledge,
      t ∉ st.knowledge ∧ t ∈ (st.derivePass).1.knowledge :=
  foldl_appendNew_new (MinesweeperAI.derivedSentences st.knowledge) (st, 0) h

theorem derivePass_mem {st : MinesweeperAI} {t : Sentence}
    (ht : t ∈ (st.derivePass).1.knowledge) :
    t ∈ st.knowledge ∨ t ∈ MinesweeperAI.derivedSentences st.knowledge :=
  foldl_appendNew_mem (MinesweeperAI.derivedSentences st.knowledge) (st, 0) ht

theorem foldl_appendNew_retains (l : List Sentence) (p : MinesweeperAI × ℕ)
    {t : Sentence} (ht : t ∈ l) : t ∈ (l.foldl MinesweeperAI.appendNew p).1.knowledge := by
  induction l generalizing p with
  | nil => exact absurd ht (List.not_mem_nil t)
  | cons s l ih =>
    rw [List.foldl_cons]
    rcases List.mem_cons.mp ht with rfl | hm
    · by_cases hc : t ∈ p.1.knowledge
      · apply foldl_appendNew_kn_mono
        unfold MinesweeperAI.appendNew
        rw [if_pos hc]
        exact hc
      · apply foldl_appendNew_kn_mono
        unfold MinesweeperAI.appendNew
        rw [if_neg hc]
        exact List.mem_append.mpr (Or.inr (List.mem_singleton.mpr rfl))
    · exact ih _ hm

theorem derivePass_retains {st : MinesweeperAI} {t : Sentence}
    (ht : t ∈ MinesweeperAI.derivedSentences st.knowledge) :
    t ∈ (st.derivePass).1.knowledge :=
  foldl_appendNew_retains (MinesweeperAI.derivedSentences st.knowledge) (st, 0) ht

theorem derivePass_sound {B : Finset Cell} {st : MinesweeperAI} (h : st.sound B) :
    (st.derivePass).1.sound B := by
  obtain ⟨hmines, hsafes, _, _, _⟩ := derivePass_fields st
  refine ⟨hmines ▸ h.1, hsafes ▸ h.2.1, ?_⟩
  intro t ht
  rcases derivePass_mem ht with hm | hm
  · exact h.2.2 t hm
  · exact derivedSentences_holds h t hm

theorem derivePass_sep {st : MinesweeperAI} (h : st.sep) : (st.derivePass).1.sep := by
  obtain ⟨hmines, hsafes, _, _, _⟩ := derivePass_fields st
  intro t ht c hc
  rw [hmines, hsafes]
  rcases derivePass_mem ht with hm | hm
  · exact h t hm c hc
  · obtain ⟨s2, hs2, hsub⟩ := derivedSentences_cells_sub hm
    exact h s2 hs2 c (hsub hc)

theorem derivePass_bounded {U : Finset Cell} {st : MinesweeperAI} (h : st.bounded U) :
    (st.derivePass).1.bounded U := by
  obtain ⟨hmines, hsafes, _, _, _⟩ := derivePass_fields st
  refine ⟨hmines ▸ h.1, hsafes ▸ h.2.1, ?_⟩
  intro t ht
  rcases derivePass_mem ht with hm | hm
  · exact h.2.2 t hm
  · obtain ⟨s2, hs2, hsub⟩ := derivedSentences_cells_sub hm
    exact hsub.trans (h.2.2 s2 hs2)

/-! ### The closure loop: invariant preservation -/

theorem closureLoop_pres (P : MinesweeperAI → Prop)
    (hmark : ∀ st, P st → P (st.markPass).1)
    (hder : ∀ st, P st → P (st.derivePass).1) :
    ∀ (fuel : ℕ) (st st' : MinesweeperAI),
      MinesweeperAI.closureLoop fuel st = some st' → P st → P st' := by
  intro fuel
  induction fuel with
  | zero =>
    intro st st' h
    exact absurd h (by simp [MinesweeperAI.closureLoop])
  | succ fuel ih =>
    intro st st' h hP
    simp only [MinesweeperAI.closureLoop] at h
    have hq : P ((st.markPass).1.derivePass).1 := hder _ (hmark _ hP)
    by_cases hc : (st.markPass).2 = ∅ ∧ ((st.markPass).1.derivePass).2 = 0
    · rw [if_pos hc] at h
      exact (Option.some_injective _ h) ▸ hq
    · rw [if_neg hc] at h
      exact ih _ _ h hq

theorem closureLoop_sound {B : Finset Cell} {fuel : ℕ} {st st' : MinesweeperAI}
    (h : MinesweeperAI.closureLoop fuel st = some st') (hs : st.sound B) : st'.sound B :=
  closureLoop_pres (MinesweeperAI.sound B) (fun _ => markPass_sound)
    (fun _ => derivePass_sound) fuel st st' h hs

theorem closureLoop_sep {fuel : ℕ} {st st' : MinesweeperAI}
    (h : MinesweeperAI.closureLoop fuel st = some st') (hs : st.sep) : st'.sep :=
  closureLoop_pres MinesweeperAI.sep (fun _ => markPass_sep)
    (fun _ => derivePass_sep) fuel st st' h hs

theorem closureLoop_bounded {U : Finset Cell} {fuel : ℕ} {st st' : MinesweeperAI}
    (h : MinesweeperAI.closureLoop fuel st = some st') (hs : st.bounded U) : st'.bounded U :=
  closureLoop_pres (MinesweeperAI.bounded U) (fun _ => markPass_bounded)
    (fun _ => derivePass_bounded) fuel st st' h hs

theorem closureLoop_fields {fuel : ℕ} {st st' : MinesweeperAI}
    (h : MinesweeperAI.closureLoop fuel st = some st') :
    st'.moves_made = st.moves_made ∧ st'.height = st.height ∧ st'.width = st.width ∧
    st.mines ⊆ st'.mines ∧ st.safes ⊆ st'.safes := by
  refine closureLoop_pres
    (fun u => u.moves_made = st.moves_made ∧ u.height = st.height ∧ u.width = st.width ∧
      st.mines ⊆ u.mines ∧ st.safes ⊆ u.safes) ?_ ?_ fuel st st' h
    ⟨rfl, rfl, rfl, Finset.Subset.refl _, Finset.Subset.refl _⟩
  · intro u hu
    obtain ⟨h1, h2, h3, h4, h5⟩ := markPass_fields u
    exact ⟨h1.trans hu.1, h2.trans hu.2.1, h3.trans hu.2.2.1,
      hu.2.2.2.1.trans h4, hu.2.2.2.2.trans h5⟩
  · intro u hu
    obtain ⟨h1, h2, h3, h4, h5⟩ := derivePass_fields u
    exact ⟨h3.trans hu.1, h4.trans hu.2.1, h5.trans hu.2.2.1,
      hu.2.2.2.1.trans (le_of_eq h1.symm), hu.2.2.2.2.trans (le_of_eq h2.symm)⟩

/-! ### The closure loop: termination measure -/

theorem mem_sentUniverse {U : Finset Cell} {t : Sentence} :
    t ∈ sentUniverse U ↔ t.cells ⊆ U ∧ 0 ≤ t.count ∧ t.count ≤ (U.card : ℤ) := by
  unfold sentUniverse
  rw [Finset.mem_image]
  constructor
  · rintro ⟨q, hq, rfl⟩
    rw [Finset.mem_product] at hq
    exact ⟨Finset.mem_powerset.mp hq.1, (Finset.mem_Icc.mp hq.2).1,
      (Finset.mem_Icc.mp hq.2).2⟩
  · rintro ⟨h1, h2, h3⟩
    refine ⟨(t.cells, t.count), ?_, rfl⟩
    rw [Finset.mem_product]
    exact ⟨Finset.mem_powerset.mpr h1, Finset.mem_Icc.mpr ⟨h2, h3⟩⟩

theorem kn_sub_sentUniverse {B U : Finset Cell} {st : MinesweeperAI}
    (hs : st.sound B) (hb : st.bounded U) :
    ∀ t ∈ st.knowledge, t ∈ sentUniverse U := by
  intro t ht
  rw [mem_sentUniverse]
  have hh := hs.2.2 t ht
  unfold Sentence.holds at hh
  have h1 : (t.cells ∩ B).card ≤ t.cells.card :=
    Finset.card_le_card Finset.inter_subset_left
  have h2 : t.cells.card ≤ U.card := Finset.card_le_card (hb.2.2 t ht)
  exact ⟨hb.2.2 t ht, by omega, by omega⟩

theorem measure_arith {a1 a2 b1 b2 K : ℕ} (ha : a2 < a1) (hb : b2 ≤ K) :
    a2 * (K + 1) + b2 < a1 * (K + 1) + b1 := by
  have h1 : a2 * (K + 1) + b2 < (a2 + 1) * (K + 1) := by
    rw [Nat.succ_mul]
    omega
  have h2 : (a2 + 1) * (K + 1) ≤ a1 * (K + 1) := Nat.mul_le_mul_right _ (by omega)
  omega

theorem pass_decreases {B U : Finset Cell} {st : MinesweeperAI}
    (hs : st.sound B) (hsep : st.sep) (hb : st.bounded U)
    (hneg : ¬((st.markPass).2 = ∅ ∧ ((st.markPass).1.derivePass).2 = 0)) :
    measureM U ((st.markPass).1.derivePass).1 < measureM U st := by
  obtain ⟨hsep1, hbnd1, hm1, hs1, hint, hsub⟩ := markPass_growth hsep hb
  obtain ⟨hdm, hds, _, _, _⟩ := derivePass_fields (st.markPass).1
  by_cases hch : (st.markPass).2 = ∅
  · -- the marking sub-pass changed nothing, so the deriving sub-pass
    -- appended at least one new sentence
    have hn : ((st.markPass).1.derivePass).2 ≠ 0 := fun h0 => hneg ⟨hch, h0⟩
    have hid : (st.markPass).1 = st := markPass_of_snd_empty hch
    rw [hid] at hn hdm hds ⊢
    obtain ⟨t, htd, htn, htm⟩ := derivePass_new hn
    have htU : t ∈ sentUniverse U := by
      rw [mem_sentUniverse]
      have hh := derivedSentences_holds hs t htd
      unfold Sentence.holds at hh
      obtain ⟨s2, hs2, hcs⟩ := derivedSentences_cells_sub htd
      have h1 : (t.cells ∩ B).card ≤ t.cells.card :=
        Finset.card_le_card Finset.inter_subset_left
      have h2 : t.cells.card ≤ U.card :=
        Finset.card_le_card (hcs.trans (hb.2.2 s2 hs2))
      exact ⟨hcs.trans (hb.2.2 s2 hs2), by omega, by omega⟩
    have hmono : st.knowledge.toFinset ⊆ (st.derivePass).1.knowledge.toFinset := by
      intro u hu
      rw [List.mem_toFinset] at *
      exact derivePass_kn_mono hu
    have hlt : ((sentUniverse U) \ (st.derivePass).1.knowledge.toFinset).card <
        ((sentUniverse U) \ st.knowledge.toFinset).card := by
      apply Finset.card_lt_card
      constructor
      · exact Finset.sdiff_subset_sdiff (Finset.Subset.refl _) hmono
      · intro hcon
        have h1 : t ∈ (sentUniverse U) \ st.knowledge.toFinset :=
          Finset.mem_sdiff.mpr ⟨htU, by rw [List.mem_toFinset]; exact htn⟩
        have h2 := hcon h1
        rw [Finset.mem_sdiff, List.mem_toFinset] at h2
        exact h2.2 htm
    unfold measureM
    rw [hdm, hds]
    omega
  · -- at least one new cell was confirmed during the marking sub-pass
    obtain ⟨x, hx⟩ := Finset.nonempty_iff_ne_empty.mpr hch
    have hxU : x ∈ U := by
      have := hsub hx
      rcases Finset.mem_union.mp this with h1 | h1
      · exact hbnd1.1 h1
      · exact hbnd1.2.1 h1
    have hxold : x ∉ st.mines ∪ st.safes := by
      intro hcon
      have : x ∈ (st.markPass).2 ∩ (st.mines ∪ st.safes) :=
        Finset.mem_inter.mpr ⟨hx, hcon⟩
      rw [hint] at this
      exact absurd this (Finset.not_mem_empty x)
    have hss : st.mines ∪ st.safes ⊆
        ((st.markPass).1.derivePass).1.mines ∪ ((st.markPass).1.derivePass).1.safes := by
      rw [hdm, hds]
      exact Finset.union_subset_union hm1 hs1
    have hlt : (U \ (((st.markPass).1.derivePass).1.mines ∪
        ((st.markPass).1.derivePass).1.safes)).card < (U \ (st.mines ∪ st.safes)).card := by
      apply Finset.card_lt_card
      constructor
      · exact Finset.sdiff_subset_sdiff (Finset.Subset.refl _) hss
      · intro hcon
        have h1 : x ∈ U \ (st.mines ∪ st.safes) := Finset.mem_sdiff.mpr ⟨hxU, hxold⟩
        have h2 := hcon h1
        rw [Finset.mem_sdiff] at h2
        apply h2.2
        rw [hdm, hds]
        exact hsub hx
    have hbK : ((sentUniverse U) \
        ((st.markPass).1.derivePass).1.knowledge.toFinset).card ≤ (sentUniverse U).card :=
      Finset.card_le_card (Finset.sdiff_subset)
    unfold measureM
    exact measure_arith hlt hbK

theorem closureLoop_term_aux (B U : Finset Cell) :
    ∀ (n : ℕ) (st : MinesweeperAI), measureM U st ≤ n →
      st.sound B → st.sep → st.bounded U →
      ∃ st', MinesweeperAI.closureLoop (n + 1) st = some st' := by
  intro n
  induction n with
  | zero =>
    intro st hM hs hsep hb
    by_cases hc : (st.markPass).2 = ∅ ∧ ((st.markPass).1.derivePass).2 = 0
    · refine ⟨((st.markPass).1.derivePass).1, ?_⟩
      simp only [MinesweeperAI.closureLoop]
      rw [if_pos hc]
    · exact absurd (pass_decreases hs hsep hb hc) (by omega)
  | succ n ih =>
    intro st hM hs hsep hb
    by_cases hc : (st.markPass).2 = ∅ ∧ ((st.markPass).1.derivePass).2 = 0
    · refine ⟨((st.markPass).1.derivePass).1, ?_⟩
      simp only [MinesweeperAI.closureLoop]
      rw [if_pos hc]
    · have hdec := pass_decreases hs hsep hb hc
      have hs2 : (((st.markPass).1.derivePass).1).sound B :=
        derivePass_sound (markPass_sound hs)
      have hsep2 : (((st.markPass).1.derivePass).1).sep :=
        derivePass_sep (markPass_sep hsep)
      have hb2 : (((st.markPass).1.derivePass).1).bounded U :=
        derivePass_bounded (markPass_bounded hb)
      obtain ⟨st', hst'⟩ := ih ((st.markPass).1.derivePass).1 (by omega) hs2 hsep2 hb2
      refine ⟨st', ?_⟩
      simp only [MinesweeperAI.closureLoop]
      rw [if_neg hc]
      exact hst'

theorem closureLoop_terminates {B U : Finset Cell} {st : MinesweeperAI}
    (hs : st.sound B) (hsep : st.sep) (hb : st.bounded U) :
    ∃ fuel st', MinesweeperAI.closureLoop fuel st = some st' := by
  obtain ⟨st', hst'⟩ :=
    closureLoop_term_aux B U (measureM U st) st (le_refl _) hs hsep hb
  exact ⟨measureM U st + 1, st', hst'⟩

/-! ### Steps 1-3 of add_knowledge -/

theorem erase_inter_eq (s B : Finset Cell) (c : Cell) :
    s.erase c ∩ B = (s ∩ B).erase c := by
  ext x
  simp only [Finset.mem_erase, Finset.mem_inter]
  tauto

theorem erase_inter_of_not_mem {B : Finset Cell} {c : Cell} (hc : c ∉ B)
    (s : Finset Cell) : s.erase c ∩ B = s ∩ B := by
  ext x
  simp only [Finset.mem_erase, Finset.mem_inter]
  constructor
  · tauto
  · rintro ⟨hx, hxB⟩
    exact ⟨⟨fun he => hc (he ▸ hxB), hx⟩, hxB⟩

theorem dropKnown_fold_cells (mines safes : Finset Cell) :
    ∀ (l : List Cell) (p : Finset Cell × ℤ),
      (l.foldl (MinesweeperAI.dropKnown mines safes) p).1 =
        p.1 \ (l.toFinset ∩ (mines ∪ safes)) := by
  intro l
  induction l with
  | nil => intro p; simp
  | cons c l ih =>
    intro p
    rw [List.foldl_cons, ih]
    have hstep : (MinesweeperAI.dropKnown mines safes p c).1 =
        if c ∈ mines ∪ safes then p.1.erase c else p.1 := by
      unfold MinesweeperAI.dropKnown
      by_cases hm : c ∈ mines <;> by_cases hsf : c ∈ safes <;>
        simp [hm, hsf, Finset.erase_idem, Finset.mem_union]
    rw [hstep]
    by_cases hcm : c ∈ mines ∪ safes
    · rw [if_pos hcm]
      ext x
      simp only [Finset.mem_sdiff, Finset.mem_erase, Finset.mem_inter,
        List.toFinset_cons, Finset.mem_insert]
      constructor
      · rintro ⟨⟨hxc, hx⟩, hncap⟩
        exact ⟨hx, fun hh => hncap ⟨hh.1.resolve_left hxc, hh.2⟩⟩
      · rintro ⟨hx, hncap⟩
        refine ⟨⟨fun he => hncap ⟨Or.inl he, he ▸ hcm⟩, hx⟩, fun hh => hncap ⟨Or.inr hh.1, hh.2⟩⟩
    · rw [if_neg hcm]
      ext x
      simp only [Finset.mem_sdiff, Finset.mem_inter, List.toFinset_cons, Finset.mem_insert]
      constructor
      · rintro ⟨hx, hncap⟩
        refine ⟨hx, fun hh => ?_⟩
        rcases hh.1 with he | hl
        · exact hcm (he ▸ hh.2)
        · exact hncap ⟨hl, hh.2⟩
      · rintro ⟨hx, hncap⟩
        exact ⟨hx, fun hh => hncap ⟨Or.inr hh.1, hh.2⟩⟩

theorem dropKnown_fold_holds {B mines safes : Finset Cell}
    (hmB : mines ⊆ B) (hsB : ∀ c ∈ safes, c ∉ B) :
    ∀ (l : List Cell) (p : Finset Cell × ℤ), l.Nodup → (∀ c ∈ l, c ∈ p.1) →
      ((p.1 ∩ B).card : ℤ) = p.2 →
      (((l.foldl (MinesweeperAI.dropKnown mines safes) p).1 ∩ B).card : ℤ) =
        (l.foldl (MinesweeperAI.dropKnown mines safes) p).2 := by
  intro l
  induction l with
  | nil => intro p _ _ h; exact h
  | cons c l ih =>
    intro p hnd hmem hinit
    rw [List.foldl_cons]
    have hcp : c ∈ p.1 := hmem c (List.mem_cons_self c l)
    have hnd' : l.Nodup := (List.nodup_cons.mp hnd).2
    have hcl : c ∉ l := (List.nodup_cons.mp hnd).1
    have hstep : ((MinesweeperAI.dropKnown mines safes p c).1 ∩ B).card =
        ((MinesweeperAI.dropKnown mines safes p c).2 : ℤ) →
        True := fun _ => trivial
    clear hstep
    apply ih _ hnd'
    · intro d hd
      have hdp : d ∈ p.1 := hmem d (List.mem_cons_of_mem c hd)
      have hdc : d ≠ c := fun he => hcl (he ▸ hd)
      unfold MinesweeperAI.dropKnown
      by_cases hm : c ∈ mines <;> by_cases hsf : c ∈ safes <;>
        simp [hm, hsf, Finset.mem_erase, hdc, hdp]
    · unfold MinesweeperAI.dropKnown
      by_cases hm : c ∈ mines
      · have hcB : c ∈ B := hmB hm
        have hcsf : c ∉ safes := fun hh => hsB c hh hcB
        simp only [hm, if_true, hcsf, if_false]
        have h1 : p.1.erase c ∩ B = (p.1 ∩ B).erase c := erase_inter_eq _ _ _
        have h2 : c ∈ p.1 ∩ B := Finset.mem_inter.mpr ⟨hcp, hcB⟩
        have h3 : ((p.1 ∩ B).erase c).card = (p.1 ∩ B).card - 1 :=
          Finset.card_erase_of_mem h2
        have h4 : 1 ≤ (p.1 ∩ B).card := Finset.card_pos.mpr ⟨c, h2⟩
        simp only [h1, h3]
        omega
      · by_cases hsf : c ∈ safes
        · have hcB : c ∉ B := hsB c hsf
          simp only [hm, if_false, hsf, if_true]
          rw [erase_inter_of_not_mem hcB]
          exact hinit
        · simp only [hm, if_false, hsf]
          exact hinit

theorem stage3_eq (st : MinesweeperAI) (cell : Cell) (count : ℤ) :
    MinesweeperAI.stage3 st cell count =
      { height := st.height, width := st.width,
        moves_made := insert cell st.moves_made,
        mines := st.mines,
        safes := insert cell (insert cell st.safes),
        knowledge := (st.knowledge.map (fun s => s.mark_safe cell)) ++
          [{ cells := ((cellSort (surroundingCells st.height st.width cell)).foldl
              (MinesweeperAI.dropKnown st.mines (insert cell (insert cell st.safes)))
              (surroundingCells st.height st.width cell, count)).1,
             count := ((cellSort (surroundingCells st.height st.width cell)).foldl
              (MinesweeperAI.dropKnown st.mines (insert cell (insert cell st.safes)))
              (surroundingCells st.height st.width cell, count)).2 }] } := rfl

theorem stage3_sound {B : Finset Cell} {st : MinesweeperAI} {cell : Cell} {count : ℤ}
    (h : st.sound B) (hcell : cell ∉ B)
    (hcount : count = (Minesweeper.nearby_mines st.height st.width B cell : ℤ)) :
    (MinesweeperAI.stage3 st cell count).sound B := by
  rw [stage3_eq]
  refine ⟨h.1, ?_, ?_⟩
  · intro c hc
    simp only [Finset.mem_insert] at hc
    rcases hc with rfl | rfl | hc
    · exact hcell
    · exact hcell
    · exact h.2.1 c hc
  · intro t ht
    rcases List.mem_append.mp ht with hm | hm
    · obtain ⟨u, hu, rfl⟩ := List.mem_map.mp hm
      exact Sentence.holds_mark_safe (h.2.2 u hu) hcell
    · rw [List.mem_singleton.mp hm]
      show Sentence.holds B _
      unfold Sentence.holds
      apply dropKnown_fold_holds h.1
      · intro c hc
        simp only [Finset.mem_insert] at hc
        rcases hc with rfl | rfl | hc
        · exact hcell
        · exact hcell
        · exact h.2.1 c hc
      · exact cellSort_nodup _
      · exact fun c hc => mem_cellSort.mp hc
      · rw [hcount]
        rfl

theorem stage3_sep {st : MinesweeperAI} {cell : Cell} {count : ℤ} (h : st.sep) :
    (MinesweeperAI.stage3 st cell count).sep := by
  rw [stage3_eq]
  intro t ht c hc
  rcases List.mem_append.mp ht with hm | hm
  · obtain ⟨u, hu, rfl⟩ := List.mem_map.mp hm
    obtain ⟨hcu, hcc⟩ := Sentence.mem_mark_safe_cells.mp hc
    obtain ⟨h1, h2⟩ := h u hu c hcu
    refine ⟨h1, ?_⟩
    simp only [Finset.mem_insert]
    rintro (rfl | rfl | hcon)
    · exact hcc rfl
    · exact hcc rfl
    · exact h2 hcon
  · rw [List.mem_singleton.mp hm] at hc
    rw [dropKnown_fold_cells] at hc
    rw [Finset.mem_sdiff, cellSort_toFinset] at hc
    obtain ⟨hcnb, hcnot⟩ := hc
    constructor
    · intro hcon
      exact hcnot (Finset.mem_inter.mpr ⟨hcnb, Finset.mem_union.mpr (Or.inl hcon)⟩)
    · intro hcon
      exact hcnot (Finset.mem_inter.mpr ⟨hcnb, Finset.mem_union.mpr (Or.inr hcon)⟩)

theorem mem_allCells {h w : ℤ} {p : Cell} :
    p ∈ MinesweeperAI.allCells h w ↔ 0 ≤ p.1 ∧ p.1 < h ∧ 0 ≤ p.2 ∧ p.2 < w := by
  unfold MinesweeperAI.allCells
  rw [Finset.mem_product, Finset.mem_Icc, Finset.mem_Icc]
  omega

theorem surroundingCells_sub_allCells (h w : ℤ) (c : Cell) :
    surroundingCells h w c ⊆ MinesweeperAI.allCells h w := by
  intro p hp
  unfold surroundingCells at hp
  rw [Finset.mem_filter] at hp
  rw [mem_allCells]
  exact ⟨hp.2.2.1, hp.2.2.2.1, hp.2.2.2.2.1, hp.2.2.2.2.2⟩

theorem stage3_bounded {U : Finset Cell} {st : MinesweeperAI} {cell : Cell} {count : ℤ}
    (h : st.bounded U) (hcell : cell ∈ U)
    (hnb : surroundingCells st.height st.width cell ⊆ U) :
    (MinesweeperAI.stage3 st cell count).bounded U := by
  rw [stage3_eq]
  refine ⟨h.1, ?_, ?_⟩
  · intro c hc
    simp only [Finset.mem_insert] at hc
    rcases hc with rfl | rfl | hc
    · exact hcell
    · exact hcell
    · exact h.2.1 hc
  · intro t ht
    rcases List.mem_append.mp ht with hm | hm
    · obtain ⟨u, hu, rfl⟩ := List.mem_map.mp hm
      intro c hc
      exact h.2.2 u hu (Sentence.mem_mark_safe_cells.mp hc).1
    · rw [List.mem_singleton.mp hm]
      intro c hc
      rw [dropKnown_fold_cells, Finset.mem_sdiff] at hc
      exact hnb hc.1

/-! ### Deduplication keeping first occurrences, and the cleanup -/

theorem pwDedup_append (l : List Sentence) (s : Sentence) :
    MinesweeperAI.pwDedup (l ++ [s]) =
      if s ∈ MinesweeperAI.pwDedup l then MinesweeperAI.pwDedup l
      else MinesweeperAI.pwDedup l ++ [s] := by
  unfold MinesweeperAI.pwDedup
  rw [List.foldl_append]
  rfl

theorem mem_pwDedup (l : List Sentence) :
    ∀ x, x ∈ MinesweeperAI.pwDedup l ↔ x ∈ l := by
  induction l using List.reverseRecOn with
  | nil => intro x; rfl
  | append_singleton l s ih =>
    intro x
    rw [pwDedup_append]
    by_cases hc : s ∈ MinesweeperAI.pwDedup l
    · rw [if_pos hc]
      rw [ih x]
      constructor
      · exact fun hx => List.mem_append.mpr (Or.inl hx)
      · intro hx
        rcases List.mem_append.mp hx with hx | hx
        · exact hx
        · rw [List.mem_singleton.mp hx]
          exact (ih s).mp hc
    · rw [if_neg hc]
      constructor
      · intro hx
        rcases List.mem_append.mp hx with hx | hx
        · exact List.mem_append.mpr (Or.inl ((ih x).mp hx))
        · exact List.mem_append.mpr (Or.inr hx)
      · intro hx
        rcases List.mem_append.mp hx with hx | hx
        · exact List.mem_append.mpr (Or.inl ((ih x).mpr hx))
        · exact List.mem_append.mpr (Or.inr hx)

theorem nodup_pwDedup (l : List Sentence) : (MinesweeperAI.pwDedup l).Nodup := by
  induction l using List.reverseRecOn with
  | nil => exact List.nodup_nil
  | append_singleton l s ih =>
    rw [pwDedup_append]
    by_cases hc : s ∈ MinesweeperAI.pwDedup l
    · rw [if_pos hc]
      exact ih
    · rw [if_neg hc]
      rw [List.nodup_append]
      exact ⟨ih, List.nodup_singleton s,
        fun a ha hs => hc (List.mem_singleton.mp hs ▸ ha)⟩

theorem pairwise_pwDedup (l : List Sentence) :
    (MinesweeperAI.pwDedup l).Pairwise (fun a b => l.indexOf a < l.indexOf b) := by
  induction l using List.reverseRecOn with
  | nil => exact List.Pairwise.nil
  | append_singleton l s ih =>
    rw [pwDedup_append]
    have htransfer : (MinesweeperAI.pwDedup l).Pairwise
        (fun a b => (l ++ [s]).indexOf a < (l ++ [s]).indexOf b) := by
      refine List.Pairwise.imp_of_mem ?_ ih
      intro a b ha hb hab
      rw [List.indexOf_append_of_mem ((mem_pwDedup l a).mp ha),
        List.indexOf_append_of_mem ((mem_pwDedup l b).mp hb)]
      exact hab
    by_cases hc : s ∈ MinesweeperAI.pwDedup l
    · rw [if_pos hc]
      exact htransfer
    · rw [if_neg hc]
      rw [List.pairwise_append]
      refine ⟨htransfer, List.pairwise_singleton _ s, ?_⟩
      intro a ha b hb
      rw [List.mem_singleton.mp hb]
      have hsl : s ∉ l := fun hh => hc ((mem_pwDedup l s).mpr hh)
      have hal : a ∈ l := (mem_pwDedup l a).mp ha
      rw [List.indexOf_append_of_mem hal, List.indexOf_append_of_not_mem hsl]
      have h1 : l.indexOf a < l.length := List.indexOf_lt_length.mpr hal
      omega

theorem cleanupKB_fields (st : MinesweeperAI) :
    (MinesweeperAI.cleanupKB st).moves_made = st.moves_made ∧
    (MinesweeperAI.cleanupKB st).mines = st.mines ∧
    (MinesweeperAI.cleanupKB st).safes = st.safes ∧
    (MinesweeperAI.cleanupKB st).height = st.height ∧
    (MinesweeperAI.cleanupKB st).width = st.width :=
  ⟨rfl, rfl, rfl, rfl, rfl⟩

theorem mem_cleanupKB {st : MinesweeperAI} {t : Sentence} :
    t ∈ (MinesweeperAI.cleanupKB st).knowledge ↔ t ∈ st.knowledge ∧ t.cells ≠ ∅ := by
  show t ∈ MinesweeperAI.pwDedup (st.knowledge.filter (fun s => s.cells ≠ ∅)) ↔ _
  rw [mem_pwDedup, List.mem_filter]
  simp

theorem cleanupKB_sound {B : Finset Cell} {st : MinesweeperAI} (h : st.sound B) :
    (MinesweeperAI.cleanupKB st).sound B := by
  refine ⟨h.1, h.2.1, ?_⟩
  intro t ht
  exact h.2.2 t (mem_cleanupKB.mp ht).1

theorem cleanupKB_sep {st : MinesweeperAI} (h : st.sep) :
    (MinesweeperAI.cleanupKB st).sep := by
  intro t ht c hc
  exact h t (mem_cleanupKB.mp ht).1 c hc

theorem cleanupKB_bounded {U : Finset Cell} {st : MinesweeperAI} (h : st.bounded U) :
    (MinesweeperAI.cleanupKB st).bounded U := by
  refine ⟨h.1, h.2.1, ?_⟩
  intro t ht
  exact h.2.2 t (mem_cleanupKB.mp ht).1

/-! ### add_knowledge: composition of the stages -/

theorem add_knowledge_some_iff {fuel : ℕ} {st : MinesweeperAI} {cell : Cell}
    {count : ℤ} {st' : MinesweeperAI} :
    MinesweeperAI.add_knowledge fuel st cell count = some st' ↔
    ∃ stE, MinesweeperAI.closureLoop fuel (MinesweeperAI.stage3 st cell count) = some stE ∧
      st' = MinesweeperAI.cleanupKB stE := by
  unfold MinesweeperAI.add_knowledge
  cases h : MinesweeperAI.closureLoop fuel (MinesweeperAI.stage3 st cell count) with
  | none => simp
  | some stE =>
    rw [Option.map_some', Option.some_inj]
    constructor
    · intro he
      exact ⟨stE, rfl, he.symm⟩
    · rintro ⟨u, hu, rfl⟩
      rw [Option.some_inj] at hu
      rw [hu]

theorem add_knowledge_sound {B : Finset Cell} {fuel : ℕ} {st : MinesweeperAI}
    {cell : Cell} {count : ℤ} {st' : MinesweeperAI}
    (h : MinesweeperAI.add_knowledge fuel st cell count = some st')
    (hs : st.sound B) (hcell : cell ∉ B)
    (hcount : count = (Minesweeper.nearby_mines st.height st.width B cell : ℤ)) :
    st'.sound B := by
  obtain ⟨stE, hE, rfl⟩ := add_knowledge_some_iff.mp h
  exact cleanupKB_sound (closureLoop_sound hE (stage3_sound hs hcell hcount))

theorem add_knowledge_sep {fuel : ℕ} {st : MinesweeperAI} {cell : Cell} {count : ℤ}
    {st' : MinesweeperAI} (h : MinesweeperAI.add_knowledge fuel st cell count = some st')
    (hs : st.sep) : st'.sep := by
  obtain ⟨stE, hE, rfl⟩ := add_knowledge_some_iff.mp h
  exact cleanupKB_sep (closureLoop_sep hE (stage3_sep hs))

theorem add_knowledge_fields {fuel : ℕ} {st : MinesweeperAI} {cell : Cell} {count : ℤ}
    {st' : MinesweeperAI} (h : MinesweeperAI.add_knowledge fuel st cell count = some st') :
    st'.moves_made = insert cell st.moves_made ∧ st'.height = st.height ∧
    st'.width = st.width ∧ st.mines ⊆ st'.mines ∧ insert cell st.safes ⊆ st'.safes := by
  obtain ⟨stE, hE, rfl⟩ := add_knowledge_some_iff.mp h
  obtain ⟨hmv, hh, hw, hm, hsf⟩ := closureLoop_fields hE
  rw [stage3_eq] at hmv hh hw hm hsf
  obtain ⟨c1, c2, c3, c4, c5⟩ := cleanupKB_fields stE
  refine ⟨c1.trans hmv, c4.trans hh, c5.trans hw, ?_, ?_⟩
  · rw [c2]
    exact Finset.Subset.trans (by exact fun x hx => hx) hm
  · rw [c3]
    refine Finset.Subset.trans ?_ hsf
    intro x hx
    rcases Finset.mem_insert.mp hx with rfl | hx
    · exact Finset.mem_insert_self _ _
    · exact Finset.mem_insert_of_mem (Finset.mem_insert_of_mem hx)

/-! ### Sequences of observations -/

theorem sound_disjoint {B : Finset Cell} {st : MinesweeperAI} (h : st.sound B) :
    st.mines ∩ st.safes = ∅ := by
  ext x
  simp only [Finset.mem_inter, Finset.not_mem_empty, iff_false, not_and]
  intro hm hs
  exact h.2.1 x hs (h.1 hm)

theorem init_sound (B : Finset Cell) (h w : ℤ) : (MinesweeperAI.init h w).sound B := by
  refine ⟨Finset.empty_subset _, ?_, ?_⟩
  · intro c hc
    exact absurd hc (Finset.not_mem_empty c)
  · intro s hs
    exact absurd hs (List.not_mem_nil s)

theorem runCalls_sound {B : Finset Cell} {h w : ℤ} {fuel : ℕ} :
    ∀ (calls : List (Cell × ℤ)) (st st' : MinesweeperAI), st.sound B →
      st.height = h → st.width = w →
      (∀ p ∈ calls, p.1 ∉ B ∧ p.2 = (Minesweeper.nearby_mines h w B p.1 : ℤ)) →
      MinesweeperAI.runCalls fuel calls st = some st' → st'.sound B := by
  intro calls
  induction calls with
  | nil =>
    intro st st' hs _ _ _ hrun
    have : st = st' := by
      unfold MinesweeperAI.runCalls at hrun
      rw [List.foldlM_nil] at hrun
      exact Option.some_injective _ hrun
    exact this ▸ hs
  | cons p calls ih =>
    intro st st' hs hh hw hpre hrun
    unfold MinesweeperAI.runCalls at hrun
    rw [List.foldlM_cons] at hrun
    obtain ⟨st1, h1, h2⟩ := Option.bind_eq_some.mp hrun
    obtain ⟨hp1, hp2⟩ := hpre p (List.mem_cons_self p calls)
    have hs1 : st1.sound B :=
      add_knowledge_sound h1 hs hp1 (by rw [hh, hw]; exact hp2)
    obtain ⟨_, hh1, hw1, _, _⟩ := add_knowledge_fields h1
    exact ih st1 st' hs1 (hh1.trans hh) (hw1.trans hw)
      (fun q hq => hpre q (List.mem_cons_of_mem p hq)) h2

/-! ### Idempotence of the sentence-level marks -/

theorem Sentence.mark_mine_idem (s : Sentence) (c : Cell) :
    (s.mark_mine c).mark_mine c = s.mark_mine c := by
  have hc : c ∉ (s.mark_mine c).cells := fun h =>
    (Sentence.mem_mark_mine_cells.mp h).2 rfl
  show (if c ∈ (s.mark_mine c).cells then
      ({ cells := (s.mark_mine c).cells.erase c, count := (s.mark_mine c).count - 1 } :
        Sentence)
    else s.mark_mine c) = s.mark_mine c
  rw [if_neg hc]

theorem Sentence.mark_safe_idem (s : Sentence) (c : Cell) :
    (s.mark_safe c).mark_safe c = s.mark_safe c := by
  have hc : c ∉ (s.mark_safe c).cells := fun h =>
    (Sentence.mem_mark_safe_cells.mp h).2 rfl
  show (if c ∈ (s.mark_safe c).cells then
      ({ cells := (s.mark_safe c).cells.erase c, count := (s.mark_safe c).count } :
        Sentence)
    else s.mark_safe c) = s.mark_safe c
  rw [if_neg hc]

/-! ### The move selectors -/

theorem make_safe_move_mem {st : MinesweeperAI} {r : ℕ}
    (h : st.safes \ st.moves_made ≠ ∅) :
    ∃ c ∈ st.safes \ st.moves_made, st.make_safe_move r = some c := by
  unfold MinesweeperAI.make_safe_move
  have hcard : ¬(cellSort (st.safes \ st.moves_made)).length = 0 := by
    rw [length_cellSort]
    intro h0
    exact h (Finset.card_eq_zero.mp h0)
  rw [dif_neg hcard]
  refine ⟨_, ?_, rfl⟩
  rw [← mem_cellSort]
  exact List.get_mem _ _ _

theorem make_safe_move_empty {st : MinesweeperAI} {r : ℕ}
    (h : st.safes \ st.moves_made = ∅) : st.make_safe_move r = none := by
  unfold MinesweeperAI.make_safe_move
  have hcard : (cellSort (st.safes \ st.moves_made)).length = 0 := by
    rw [length_cellSort, h]
    rfl
  rw [dif_pos hcard]

theorem make_random_move_mem {st : MinesweeperAI} {r : ℕ}
    (h : (MinesweeperAI.allCells st.height st.width \ st.moves_made) \ st.mines ≠ ∅) :
    ∃ c ∈ (MinesweeperAI.allCells st.height st.width \ st.moves_made) \ st.mines,
      st.make_random_move r = some c := by
  unfold MinesweeperAI.make_random_move
  have hcard : ¬((cellSort ((MinesweeperAI.allCells st.height st.width \ st.moves_made) \
      st.mines)).length = 0) := by
    rw [length_cellSort]
    intro h0
    exact h (Finset.card_eq_zero.mp h0)
  rw [dif_neg hcard]
  refine ⟨_, ?_, rfl⟩
  rw [← mem_cellSort]
  exact List.get_mem _ _ _

theorem make_random_move_empty {st : MinesweeperAI} {r : ℕ}
    (h : (MinesweeperAI.allCells st.height st.width \ st.moves_made) \ st.mines = ∅) :
    st.make_random_move r = none := by
  unfold MinesweeperAI.make_random_move
  have hcard : ((cellSort ((MinesweeperAI.allCells st.height st.width \ st.moves_made) \
      st.mines)).length = 0) := by
    rw [length_cellSort, h]
    rfl
  rw [dif_pos hcard]

theorem make_random_move_eq (st : MinesweeperAI) (r : ℕ)
    (h : ¬((MinesweeperAI.allCells st.height st.width \ st.moves_made) \
      st.mines).card = 0) :
    ∃ hlt : r % (cellSort ((MinesweeperAI.allCells st.height st.width \ st.moves_made) \
        st.mines)).length <
      (cellSort ((MinesweeperAI.allCells st.height st.width \ st.moves_made) \
        st.mines)).length,
      st.make_random_move r =
        some ((cellSort ((MinesweeperAI.allCells st.height st.width \ st.moves_made) \
          st.mines)).get
          ⟨r % (cellSort ((MinesweeperAI.allCells st.height st.width \ st.moves_made) \
            st.mines)).length, hlt⟩) := by
  have hlen : ¬(cellSort ((MinesweeperAI.allCells st.height st.width \ st.moves_made) \
      st.mines)).length = 0 := by
    rw [length_cellSort]
    exact h
  refine ⟨Nat.mod_lt _ (Nat.pos_of_ne_zero hlen), ?_⟩
  simp only [MinesweeperAI.make_random_move]
  rw [dif_neg hlen]

theorem make_random_move_uniform {st : MinesweeperAI} :
    ∀ c ∈ (MinesweeperAI.allCells st.height st.width \ st.moves_made) \ st.mines,
      ∃! i : Fin ((MinesweeperAI.allCells st.height st.width \ st.moves_made) \
        st.mines).card, st.make_random_move i.val = some c := by
  intro c hc
  have hcard : ¬((MinesweeperAI.allCells st.height st.width \ st.moves_made) \
      st.mines).card = 0 := by
    intro h0
    rw [Finset.card_eq_zero.mp h0] at hc
    exact absurd hc (Finset.not_mem_empty c)
  have hlen := length_cellSort ((MinesweeperAI.allCells st.height st.width \
    st.moves_made) \ st.mines)
  obtain ⟨i0, hi0⟩ := List.mem_iff_get.mp (mem_cellSort.mpr hc)
  have hi0lt : i0.val < ((MinesweeperAI.allCells st.height st.width \ st.moves_made) \
      st.mines).card := by
    have := i0.isLt
    omega
  refine ⟨⟨i0.val, hi0lt⟩, ?_, ?_⟩
  · obtain ⟨hlt, heq⟩ := make_random_move_eq st i0.val hcard
    show st.make_random_move i0.val = some c
    rw [heq, Option.some_inj, ← hi0]
    congr 1
    exact Fin.ext (Nat.mod_eq_of_lt i0.isLt)
  · intro j hj
    obtain ⟨hlt, heq⟩ := make_random_move_eq st j.val hcard
    rw [heq, Option.some_inj] at hj
    have hjlt : j.val % (cellSort ((MinesweeperAI.allCells st.height st.width \
        st.moves_made) \ st.mines)).length = j.val := by
      apply Nat.mod_eq_of_lt
      have := j.isLt
      omega
    have hget : (cellSort ((MinesweeperAI.allCells st.height st.width \ st.moves_made) \
        st.mines)).get ⟨j.val, by omega⟩ = c := by
      rw [← hj]
      congr 1
      exact Fin.ext hjlt.symm
    have hinj := (cellSort_nodup _).get_inj_iff.mp (hget.trans hi0.symm)
    apply Fin.ext
    have hval := congrArg Fin.val hinj
    exact hval

/-- Two agent states with equal fields are equal. -/
theorem MinesweeperAI.ext' {a b : MinesweeperAI} (h1 : a.height = b.height)
    (h2 : a.width = b.width) (h3 : a.moves_made = b.moves_made)
    (h4 : a.mines = b.mines) (h5 : a.safes = b.safes)
    (h6 : a.knowledge = b.knowledge) : a = b := by
  cases a
  cases b
  simp_all

/-! ### The claims -/

/-- Claim C1: for every sequence of add_knowledge calls whose inputs satisfy
the preconditions (each probed cell not previously added, not a mine of the
board `B`, and each reported count equal to the true number of mines
adjacent to the probed cell), the resulting agent state has disjoint
mine and safe sets. -/
theorem claim_C1 (B : Finset Cell) (h w : ℤ) (fuel : ℕ)
    (calls : List (Cell × ℤ)) (st' : MinesweeperAI)
    (hpre : ∀ p ∈ calls, p.1 ∉ B ∧ p.2 = (Minesweeper.nearby_mines h w B p.1 : ℤ))
    (hnodup : (calls.map Prod.fst).Nodup)
    (hrun : MinesweeperAI.runCalls fuel calls (MinesweeperAI.init h w) = some st') :
    st'.mines ∩ st'.safes = ∅ :=
  sound_disjoint (runCalls_sound calls (MinesweeperAI.init h w) st'
    (init_sound B h w) rfl rfl hpre hrun)

/-- Witness for C1: on the 2 by 2 board with the single mine (1,1), the
call add_knowledge((0,0), 1) completes and leaves disjoint mine/safe
sets. -/
theorem claim_C1_witness :
    MinesweeperAI.runCalls 1 [(((0:ℤ),(0:ℤ)), (1:ℤ))] (MinesweeperAI.init 2 2) =
      some exState22a ∧ exState22a.mines ∩ exState22a.safes = ∅ :=
  ⟨by decide, claim_C1 {((1:ℤ),(1:ℤ))} 2 2 1 [(((0:ℤ),(0:ℤ)), 1)] exState22a
    (by decide) (by decide) (by decide)⟩

/-- Claim C2: during the deductive closure, for every ordered pair of
distinct sentences (S1, S2) in the knowledge base with S1.cells a strict
subset of S2.cells, the deriving sub-pass leaves the sentence with cells
S2.cells - S1.cells and count S2.count - S1.count in the knowledge base
(it appends it unless it was already structurally present); and on the
concrete pair S1 = (A,B):1, S2 = (A,B,C):2 the closure loop derives
(C):1 and ends with C a known mine. -/
theorem claim_C2 (st : MinesweeperAI) (s1 s2 : Sentence)
    (h1 : s1 ∈ st.knowledge) (h2 : s2 ∈ st.knowledge)
    (hsub : s1.cells ⊆ s2.cells) (hne : s1.cells ≠ s2.cells) :
    ({ cells := s2.cells \ s1.cells, count := s2.count - s1.count } : Sentence) ∈
      (st.derivePass).1.knowledge ∧
    (MinesweeperAI.closureLoop 3 c2Start = some c2End ∧
      ((0:ℤ),(2:ℤ)) ∈ c2End.mines) :=
  ⟨derivePass_retains (mem_derivedSentences h1 h2 hsub hne), by decide, by decide⟩

/-- Witness for C2: from S1 = (A,B):1 and S2 = (A,B,C):2 the deriving
sub-pass puts (C):1 into the knowledge base. -/
theorem claim_C2_witness :
    ({ cells := {((0:ℤ),(2:ℤ))}, count := 1 } : Sentence) ∈
      (c2Start.derivePass).1.knowledge := by
  have h := claim_C2 c2Start
    { cells := {((0:ℤ),(0:ℤ)), ((0:ℤ),(1:ℤ))}, count := 1 }
    { cells := {((0:ℤ),(0:ℤ)), ((0:ℤ),(1:ℤ)), ((0:ℤ),(2:ℤ))}, count := 2 }
    (by decide) (by decide) (by decide) (by decide)
  have he : ({ cells := {((0:ℤ),(2:ℤ))}, count := 1 } : Sentence) =
      { cells := {((0:ℤ),(0:ℤ)), ((0:ℤ),(1:ℤ)), ((0:ℤ),(2:ℤ))} \
          {((0:ℤ),(0:ℤ)), ((0:ℤ),(1:ℤ))}, count := 2 - 1 } := by decide
  rw [he]
  exact h.1

/-- Claim C3: for every add_knowledge call whose inputs satisfy the
preconditions (cell not previously added, cell not a mine of the board
`B`, count equal to the true number of adjacent mines) on a reachable
agent state (sound and separated knowledge, all tracked cells on the
board), the deductive closure loop terminates: some finite fuel makes
the call return. -/
theorem claim_C3 (B : Finset Cell) (st : MinesweeperAI) (cell : Cell) (count : ℤ)
    (hsound : st.sound B) (hsep : st.sep)
    (hbnd : st.bounded (MinesweeperAI.allCells st.height st.width))
    (hmoves : cell ∉ st.moves_made) (hmine : cell ∉ B)
    (hcell : cell ∈ MinesweeperAI.allCells st.height st.width)
    (hcount : count = (Minesweeper.nearby_mines st.height st.width B cell : ℤ)) :
    ∃ fuel st', MinesweeperAI.add_knowledge fuel st cell count = some st' := by
  have h3s := stage3_sound hsound hmine hcount
  have h3sep := @stage3_sep st cell count hsep
  have h3b := @stage3_bounded (MinesweeperAI.allCells st.height st.width) st cell count
    hbnd hcell (surroundingCells_sub_allCells st.height st.width cell)
  obtain ⟨fuel, stE, hE⟩ := closureLoop_terminates h3s h3sep h3b
  exact ⟨fuel, MinesweeperAI.cleanupKB stE, add_knowledge_some_iff.mpr ⟨stE, hE, rfl⟩⟩

/-- Witness for C3: a fresh 2 by 2 agent probing (0,0) with the true
count 1 of the board whose single mine is (1,1). -/
theorem claim_C3_witness :
    ∃ fuel st',
      MinesweeperAI.add_knowledge fuel (MinesweeperAI.init 2 2) ((0:ℤ),(0:ℤ)) 1 =
        some st' :=
  claim_C3 {((1:ℤ),(1:ℤ))} (MinesweeperAI.init 2 2) ((0:ℤ),(0:ℤ)) 1
    (by decide) (by decide) (by decide) (by decide) (by decide) (by decide) (by decide)

/-- Claim C4: known_mines returns exactly the whole cell set when the
count equals the number of cells and the empty set otherwise;
known_safes returns exactly the whole cell set when the count is zero
and the empty set otherwise. In this functional embedding both are
functions of the sentence alone, so they cannot mutate it. -/
theorem claim_C4 (s : Sentence) :
    s.known_mines = (if (s.cells.card : ℤ) = s.count then s.cells else ∅) ∧
    s.known_safes = (if s.count = 0 then s.cells else ∅) :=
  ⟨Sentence.known_mines_eq s, Sentence.known_safes_eq s⟩

/-- Claim C5: when add_knowledge returns, the knowledge base has no
sentence with an empty cell set and no two structurally equal sentences,
and it is the first-occurrence deduplication of the raw post-closure
knowledge base: its members are exactly the non-empty sentences of that
list, and they appear ordered by the index of their first occurrence
there. -/
theorem claim_C5 (fuel : ℕ) (st : MinesweeperAI) (cell : Cell) (count : ℤ)
    (st' : MinesweeperAI)
    (h : MinesweeperAI.add_knowledge fuel st cell count = some st') :
    (∀ s ∈ st'.knowledge, s.cells ≠ ∅) ∧ st'.knowledge.Nodup ∧
    ∃ kb : List Sentence,
      st'.knowledge = MinesweeperAI.pwDedup (kb.filter (fun s => s.cells ≠ ∅)) ∧
      (∀ s, s ∈ st'.knowledge ↔ s ∈ kb ∧ s.cells ≠ ∅) ∧
      st'.knowledge.Pairwise (fun a b =>
        (kb.filter (fun s => s.cells ≠ ∅)).indexOf a <
        (kb.filter (fun s => s.cells ≠ ∅)).indexOf b) := by
  obtain ⟨stE, hE, rfl⟩ := add_knowledge_some_iff.mp h
  refine ⟨fun s hs => (mem_cleanupKB.mp hs).2, nodup_pwDedup _, stE.knowledge, rfl,
    fun s => mem_cleanupKB, pairwise_pwDedup _⟩

/-- Witness for C5: the cleaned-up knowledge base of a completed call. -/
theorem claim_C5_witness :
    MinesweeperAI.add_knowledge 2 (MinesweeperAI.init 2 2) ((0:ℤ),(0:ℤ)) 0 =
      some exState22b ∧
    (∀ s ∈ exState22b.knowledge, s.cells ≠ ∅) ∧ exState22b.knowledge.Nodup := by
  have h := claim_C5 2 (MinesweeperAI.init 2 2) ((0:ℤ),(0:ℤ)) 0 exState22b (by decide)
  exact ⟨by decide, h.1, h.2.1⟩

/-- Claim C6: make_safe_move returns some element of knownSafes minus
movesMade when that set is non-empty and none when it is empty (in
particular whenever knownSafes is contained in movesMade); on the
concrete state with knownSafes (0,0),(0,1) and movesMade (0,0) it
returns (0,1) for every random draw. As a pure function of the state it
mutates nothing. -/
theorem claim_C6 (st : MinesweeperAI) (r : ℕ) :
    (st.safes \ st.moves_made ≠ ∅ →
      ∃ c ∈ st.safes \ st.moves_made, st.make_safe_move r = some c) ∧
    (st.safes \ st.moves_made = ∅ → st.make_safe_move r = none) ∧
    (st.safes ⊆ st.moves_made → st.make_safe_move r = none) ∧
    c6State.make_safe_move r = some ((0:ℤ),(1:ℤ)) := by
  refine ⟨fun h => make_safe_move_mem h, fun h => make_safe_move_empty h, ?_, ?_⟩
  · intro hsub
    exact make_safe_move_empty (Finset.sdiff_eq_empty_iff_subset.mpr hsub)
  · have hne : c6State.safes \ c6State.moves_made ≠ ∅ := by decide
    obtain ⟨c, hc, hres⟩ := @make_safe_move_mem c6State r hne
    have hc' : c = ((0:ℤ),(1:ℤ)) := by
      have hsm : c6State.safes \ c6State.moves_made = {((0:ℤ),(1:ℤ))} := by decide
      rw [hsm] at hc
      exact Finset.mem_singleton.mp hc
    rw [hc'] at hres
    exact hres

/-- Witness for C6: on c6State the only available safe move, (0,1), is
returned. -/
theorem claim_C6_witness :
    c6State.safes \ c6State.moves_made ≠ ∅ ∧
    ∃ c ∈ c6State.safes \ c6State.moves_made, c6State.make_safe_move 0 = some c :=
  ⟨by decide, (claim_C6 c6State 0).1 (by decide)⟩

/-- Claim C7: re-marking a cell already marked produces exactly the same
agent state, mine/safe sets and all sentences included: marking twice
equals marking once, for both mark_mine and mark_safe. -/
theorem claim_C7 (st : MinesweeperAI) (c : Cell) :
    (st.mark_mine c).mark_mine c = st.mark_mine c ∧
    (st.mark_safe c).mark_safe c = st.mark_safe c := by
  constructor
  · apply MinesweeperAI.ext'
    · rfl
    · rfl
    · rfl
    · show insert c (insert c st.mines) = insert c st.mines
      exact Finset.insert_idem c st.mines
    · rfl
    · show (st.knowledge.map (fun s => s.mark_mine c)).map (fun s => s.mark_mine c) =
        st.knowledge.map (fun s => s.mark_mine c)
      rw [List.map_map]
      exact List.map_congr_left (fun s _ => Sentence.mark_mine_idem s c)
  · apply MinesweeperAI.ext'
    · rfl
    · rfl
    · rfl
    · rfl
    · show insert c (insert c st.safes) = insert c st.safes
      exact Finset.insert_idem c st.safes
    · show (st.knowledge.map (fun s => s.mark_safe c)).map (fun s => s.mark_safe c) =
        st.knowledge.map (fun s => s.mark_safe c)
      rw [List.map_map]
      exact List.map_congr_left (fun s _ => Sentence.mark_safe_idem s c)

/-- Claim C8: make_random_move returns none exactly when the set of board
cells that are neither played nor known mines is empty, otherwise some
element of that set; and the random draw is uniform over it: each
candidate cell is selected by exactly one of the card-many residues of
the random index. As a pure function of the state it mutates nothing. -/
theorem claim_C8 (st : MinesweeperAI) (r : ℕ) :
    ((MinesweeperAI.allCells st.height st.width \ st.moves_made) \ st.mines = ∅ →
      st.make_random_move r = none) ∧
    ((MinesweeperAI.allCells st.height st.width \ st.moves_made) \ st.mines ≠ ∅ →
      ∃ c ∈ (MinesweeperAI.allCells st.height st.width \ st.moves_made) \ st.mines,
        st.make_random_move r = some c) ∧
    (∀ c ∈ (MinesweeperAI.allCells st.height st.width \ st.moves_made) \ st.mines,
      ∃! i : Fin (((MinesweeperAI.allCells st.height st.width \ st.moves_made) \
        st.mines).card), st.make_random_move i.val = some c) :=
  ⟨fun h => make_random_move_empty h, fun h => make_random_move_mem h,
    make_random_move_uniform⟩

/-- Witness for C8: on exState22a the candidate set is the three cells
other than (0,0); a move is produced, and the candidate (0,1) is hit by
exactly one residue. -/
theorem claim_C8_witness :
    (∃ c ∈ (MinesweeperAI.allCells exState22a.height exState22a.width \
      exState22a.moves_made) \ exState22a.mines,
      exState22a.make_random_move 0 = some c) ∧
    ∃! i : Fin (((MinesweeperAI.allCells exState22a.height exState22a.width \
      exState22a.moves_made) \ exState22a.mines).card),
      exState22a.make_random_move i.val = some ((0:ℤ),(1:ℤ)) :=
  ⟨(claim_C8 exState22a 0).2.1 (by decide),
    (claim_C8 exState22a 0).2.2 ((0:ℤ),(1:ℤ)) (by decide)⟩

/-- Claim C9: add_knowledge preserves the invariant that every sentence of
the knowledge base has a cell set disjoint from the union of the
confirmed mines and confirmed safes: if it holds on entry (as it does
from the initial state on), every sentence remaining when the call
returns mentions no resolved cell. -/
theorem claim_C9 (fuel : ℕ) (st : MinesweeperAI) (cell : Cell) (count : ℤ)
    (st' : MinesweeperAI) (hsep : st.sep)
    (h : MinesweeperAI.add_knowledge fuel st cell count = some st') :
    ∀ s ∈ st'.knowledge, s.cells ∩ (st'.mines ∪ st'.safes) = ∅ := by
  have h2 := add_knowledge_sep h hsep
  intro s hs
  ext x
  simp only [Finset.mem_inter, Finset.mem_union, Finset.not_mem_empty, iff_false,
    not_and]
  intro hx hcon
  obtain ⟨hm, hsf⟩ := h2 s hs x hx
  rcases hcon with hc | hc
  · exact hm hc
  · exact hsf hc

/-- Witness for C9: the sentence left by the first probe of a 2 by 2 board
mentions no confirmed cell. -/
theorem claim_C9_witness :
    (MinesweeperAI.init 2 2).sep ∧
    ∀ s ∈ exState22a.knowledge,
      s.cells ∩ (exState22a.mines ∪ exState22a.safes) = ∅ :=
  ⟨by decide,
    claim_C9 1 (MinesweeperAI.init 2 2) ((0:ℤ),(0:ℤ)) 1 exState22a (by decide)
      (by decide)⟩

/-- Claim C10: the sets movesMade, knownMines and knownSafes grow
monotonically: mark_mine, mark_safe and every completed add_knowledge
call leave each of the three sets a superset of its previous value (the
move selectors are pure functions of the state and return no state at
all, so they cannot remove anything either). -/
theorem claim_C10 :
    (∀ (st : MinesweeperAI) (c : Cell),
      st.moves_made ⊆ (st.mark_mine c).moves_made ∧
      st.mines ⊆ (st.mark_mine c).mines ∧ st.safes ⊆ (st.mark_mine c).safes) ∧
    (∀ (st : MinesweeperAI) (c : Cell),
      st.moves_made ⊆ (st.mark_safe c).moves_made ∧
      st.mines ⊆ (st.mark_safe c).mines ∧ st.safes ⊆ (st.mark_safe c).safes) ∧
    (∀ (fuel : ℕ) (st : MinesweeperAI) (cell : Cell) (count : ℤ)
      (st' : MinesweeperAI),
      MinesweeperAI.add_knowledge fuel st cell count = some st' →
        st.moves_made ⊆ st'.moves_made ∧ st.mines ⊆ st'.mines ∧
        st.safes ⊆ st'.safes) := by
  refine ⟨?_, ?_, ?_⟩
  · intro st c
    exact ⟨Finset.Subset.refl _, Finset.subset_insert _ _, Finset.Subset.refl _⟩
  · intro st c
    exact ⟨Finset.Subset.refl _, Finset.Subset.refl _, Finset.subset_insert _ _⟩
  · intro fuel st cell count st' h
    obtain ⟨hmv, _, _, hm, hsf⟩ := add_knowledge_fields h
    refine ⟨?_, hm, ?_⟩
    · rw [hmv]
      exact Finset.subset_insert _ _
    · exact (Finset.subset_insert _ _).trans hsf

/-- Witness for C10: a completed call grows the safe set. -/
theorem claim_C10_witness :
    MinesweeperAI.add_knowledge 2 (MinesweeperAI.init 2 2) ((0:ℤ),(0:ℤ)) 0 =
      some exState22b ∧
    (MinesweeperAI.init 2 2).safes ⊆ exState22b.safes :=
  ⟨by decide,
    (claim_C10.2.2 2 (MinesweeperAI.init 2 2) ((0:ℤ),(0:ℤ)) 0 exState22b
      (by decide)).2.2⟩
